import Mathlib

/-!
Verification of the Linux process manager core
(process sampler, anomaly detector, alert engine, history store,
snapshot diff, process tree, CPU affinity, container classifier).

Rust strings are modelled as `List Char`; Rust `f32`/`f64` values are
modelled as exact rationals (`ℚ`); `u32`/`u64`/`usize` as `ℕ`, `i32`/`i64`
as `ℤ`; `Instant` as an integer number of seconds.  `HashMap`s are
modelled as association lists or last-write-wins lookup functions,
matching insert/lookup semantics; iteration order is fixed to insertion
order where the code's behaviour does not depend on it.
-/

namespace PMV

/-! ## String utilities (models of Rust `str` operations) -/

/-- Model of Rust `s.split(sep)` for a `char` separator: splits at every
occurrence, keeping empty pieces; always returns at least one piece. -/
def splitOnChar (sep : Char) : List Char → List (List Char)
  | [] => [[]]
  | c :: cs =>
    match splitOnChar sep cs with
    | [] => [[]]
    | p :: ps => if c = sep then [] :: p :: ps else (c :: p) :: ps

theorem splitOnChar_ne_nil (sep : Char) (s : List Char) : splitOnChar sep s ≠ [] := by
  cases s with
  | nil => simp [splitOnChar]
  | cons c cs =>
    simp only [splitOnChar]
    rcases h : splitOnChar sep cs with _ | ⟨p, ps⟩
    · simp
    · by_cases hc : c = sep <;> simp [hc]

/-- Model of Rust `s.split(sep)` for a multi-character separator:
leftmost non-overlapping matches.  (All call sites pass a non-empty
separator.) -/
def splitOnStr (sep : List Char) : List Char → List (List Char)
  | [] => [[]]
  | c :: cs =>
    if sep ≠ [] ∧ sep.isPrefixOf (c :: cs) then
      [] :: splitOnStr sep ((c :: cs).drop sep.length)
    else
      match splitOnStr sep cs with
      | [] => [[c]]
      | p :: ps => (c :: p) :: ps
termination_by s => s.length
decreasing_by
  · rename_i h
    have hsep : 0 < sep.length := List.length_pos.mpr h.1
    simp only [List.length_drop, List.length_cons]
    omega
  · simp

theorem splitOnStr_ne_nil (sep s : List Char) : splitOnStr sep s ≠ [] := by
  cases s with
  | nil => simp [splitOnStr]
  | cons c cs =>
    rw [splitOnStr]
    split
    · simp
    · split <;> simp

/-- Model of Rust `hay.contains(needle)` (substring test). -/
def containsStr (hay needle : List Char) : Bool :=
  decide (needle <:+: hay)

/-- Model of Rust's `format!("{}", n)` / `Display` for an unsigned
integer: decimal digits, most significant first. -/
def natRepr (n : ℕ) : List Char :=
  if h : n < 10 then [Nat.digitChar n]
  else natRepr (n / 10) ++ [Nat.digitChar (n % 10)]
decreasing_by
  exact Nat.div_lt_self (by omega) (by norm_num)

/-- Model of Rust `str::parse::<usize>()`: an optional leading `'+'`,
then one or more decimal digits; anything else is an error (`none`). -/
def parseNatRust (s : List Char) : Option ℕ :=
  let body := if s.head? = some '+' then s.tail else s
  if body = [] then none
  else if body.all (·.isDigit) then
    some (body.foldl (fun acc c => 10 * acc + (c.toNat - '0'.toNat)) 0)
  else none

theorem natRepr_all_digits (n : ℕ) : (natRepr n).all (·.isDigit) = true := by
  induction n using natRepr.induct with
  | case1 n h =>
    rw [natRepr, dif_pos h]
    interval_cases n <;> decide
  | case2 n h ih =>
    rw [natRepr, dif_neg h]
    simp only [List.all_append, ih, Bool.true_and, List.all_cons, List.all_nil,
      Bool.and_true]
    have : n % 10 < 10 := Nat.mod_lt _ (by norm_num)
    interval_cases hm : n % 10 <;> decide

theorem natRepr_ne_nil (n : ℕ) : natRepr n ≠ [] := by
  rw [natRepr]
  split <;> simp

theorem mem_natRepr_isDigit {n : ℕ} {c : Char} (hc : c ∈ natRepr n) : c.isDigit = true := by
  have := natRepr_all_digits n
  rw [List.all_eq_true] at this
  exact this c hc

theorem natRepr_head_ne_plus (n : ℕ) : ∀ c ∈ natRepr n, c ≠ '+' := by
  intro c hc hplus
  have := mem_natRepr_isDigit hc
  rw [hplus] at this
  exact absurd this (by decide)

/-- Folding the decimal digits of `natRepr n` starting from `acc`
reconstructs `acc * 10 ^ (number of digits) + n`. -/
theorem foldl_natRepr (n acc : ℕ) :
    (natRepr n).foldl (fun acc c => 10 * acc + (c.toNat - '0'.toNat)) acc =
      acc * 10 ^ (natRepr n).length + n := by
  induction n using natRepr.induct generalizing acc with
  | case1 n h =>
    rw [natRepr, dif_pos h]
    simp only [List.foldl_cons, List.foldl_nil, List.length_cons, List.length_nil]
    have hdc : (Nat.digitChar n).toNat - '0'.toNat = n := by
      interval_cases n <;> decide
    rw [hdc]; ring
  | case2 n h ih =>
    rw [natRepr, dif_neg h]
    rw [List.foldl_append, ih]
    simp only [List.foldl_cons, List.foldl_nil, List.length_append, List.length_cons,
      List.length_nil]
    have hdc : (Nat.digitChar (n % 10)).toNat - '0'.toNat = n % 10 := by
      have : n % 10 < 10 := Nat.mod_lt _ (by norm_num)
      interval_cases hm : n % 10 <;> decide
    rw [hdc, pow_succ]
    have : n = 10 * (n / 10) + n % 10 := (Nat.div_add_mod n 10).symm ▸ rfl
    nlinarith [Nat.div_add_mod n 10]

/-- `parse` is a left inverse of decimal formatting. -/
theorem parseNatRust_natRepr (n : ℕ) : parseNatRust (natRepr n) = some n := by
  unfold parseNatRust
  have hne : natRepr n ≠ [] := natRepr_ne_nil n
  have hhead : (natRepr n).head? ≠ some '+' := by
    rcases hr : natRepr n with _ | ⟨c, cs⟩
    · simp
    · have hc : c ≠ '+' := natRepr_head_ne_plus n c (by rw [hr]; exact List.mem_cons_self _ _)
      simpa using hc
  rw [if_neg hhead, if_neg hne, if_pos (natRepr_all_digits n)]
  have := foldl_natRepr n 0
  rw [this]
  simp

/-! ## network.rs — cgroup classification used by the sampler -/

/-- `network::CgroupInfo`.  (`namespace` is a Lean keyword, so the
Kubernetes namespace field is called `k8s_namespace`.) -/
structure CgroupInfoS where
  pid : ℕ
  container_id : Option (List Char)
  container_name : Option (List Char)
  cgroup_path : List Char
  memory_limit : Option ℕ
  cpu_quota : Option ℤ
  cpu_period : Option ℕ
  is_container : Bool
  pod_name : Option (List Char)
  k8s_namespace : Option (List Char)
deriving DecidableEq

def emptyCgroupInfo (pid : ℕ) : CgroupInfoS :=
  { pid := pid, container_id := none, container_name := none, cgroup_path := [],
    memory_limit := none, cpu_quota := none, cpu_period := none,
    is_container := false, pod_name := none, k8s_namespace := none }

/-- Scan of `network::extract_container_id`'s indexed loop: find the
first path segment containing the marker that has a successor segment;
the id is that successor, shortened to 12 characters when longer. -/
def extractIdScan (t : List Char) : List (List Char) → Option (List Char)
  | p :: next :: rest =>
    if containsStr p t then
      some (if next.length > 12 then next.take 12 else next)
    else extractIdScan t (next :: rest)
  | _ => none

/-- `network::extract_container_id`. -/
def extract_container_id (cgroup_path container_type : List Char) : Option (List Char) :=
  extractIdScan container_type (splitOnChar '/' cgroup_path)

/-- The marker tests of the line loop in `network::get_cgroup_info`,
applied to the cgroup path `p2` of one line. -/
def cgroupMarkStep (info : CgroupInfoS) (p2 : List Char) : CgroupInfoS :=
  if containsStr p2 "/docker/".toList then
    let cid := match extract_container_id p2 "docker".toList with
      | some i => some i
      | none => info.container_id
    { info with is_container := true, container_id := cid }
  else if containsStr p2 "/kubepods/".toList then
    let cid := match extract_container_id p2 "kubepods".toList with
      | some i => some i
      | none => info.container_id
    { info with is_container := true, container_id := cid }
  else if containsStr p2 "/lxc/".toList then
    let cid := match extract_container_id p2 "lxc".toList with
      | some i => some i
      | none => info.container_id
    { info with is_container := true, container_id := cid }
  else info

/-- One iteration of the line loop in `network::get_cgroup_info`:
lines with fewer than three `:`-separated fields are skipped. -/
def cgroupLineStep (info : CgroupInfoS) (line : List Char) : CgroupInfoS :=
  match splitOnChar ':' line with
  | _ :: _ :: p2 :: _ => cgroupMarkStep { info with cgroup_path := p2 } p2
  | _ => info

/-- `network::get_cgroup_info`.  The environment supplies the lines of
`/proc/<pid>/cgroup` (`none` when the file is missing or unreadable, in
which case the default info is returned) and the results of the cgroup
memory-limit and cpu-quota reads. -/
def get_cgroup_info (pid : ℕ) (file : Option (List (List Char)))
    (memLimit : Option ℕ) (cpuQuota : Option (ℤ × ℕ)) : CgroupInfoS :=
  match file with
  | none => emptyCgroupInfo pid
  | some lines =>
    let info := lines.foldl cgroupLineStep (emptyCgroupInfo pid)
    let info := match memLimit with
      | some l => { info with memory_limit := some l }
      | none => info
    match cpuQuota with
    | some (q, p) => { info with cpu_quota := some q, cpu_period := some p }
    | none => info

/-! ### The docker / kubepods / lxc marker always yields a container id -/

theorem extractIdScan_isSome (t : List Char) (pre post : List (List Char))
    (hpost : post ≠ []) : (extractIdScan t (pre ++ t :: post)).isSome = true := by
  induction pre with
  | nil =>
    rcases post with _ | ⟨q, rest⟩
    · exact absurd rfl hpost
    · simp only [List.nil_append, extractIdScan]
      have : containsStr t t = true := by
        simp [containsStr, List.infix_refl]
      rw [if_pos this]
      rfl
  | cons p pre ih =>
    have htail : pre ++ t :: post ≠ [] := by simp
    rcases he : pre ++ t :: post with _ | ⟨q, rest⟩
    · exact absurd he htail
    · simp only [List.cons_append, he, extractIdScan]
      by_cases hc : containsStr p t
      · rw [if_pos hc]; rfl
      · rw [if_neg hc, ← he]
        exact ih

/-- Splitting `w ++ sep :: xs` yields a non-empty prefix of pieces
followed by exactly the pieces of `xs`. -/
theorem splitOnChar_append_sep (sep : Char) (w xs : List Char) :
    ∃ pre, pre ≠ [] ∧ splitOnChar sep (w ++ sep :: xs) = pre ++ splitOnChar sep xs := by
  induction w with
  | nil =>
    refine ⟨[[]], by simp, ?_⟩
    simp only [List.nil_append, splitOnChar]
    rcases h : splitOnChar sep xs with _ | ⟨p, ps⟩
    · exact absurd h (splitOnChar_ne_nil sep xs)
    · simp
  | cons c w ih =>
    obtain ⟨pre, hpre, heq⟩ := ih
    rcases hp : pre with _ | ⟨p0, pre'⟩
    · exact absurd hp hpre
    · subst hp
      refine ⟨if c = sep then [] :: p0 :: pre' else (c :: p0) :: pre', ?_, ?_⟩
      · by_cases hc : c = sep <;> simp [hc]
      · have hcons : (c :: w) ++ sep :: xs = c :: (w ++ sep :: xs) := rfl
        rw [hcons, splitOnChar, heq]
        by_cases hc : c = sep <;> simp [hc]

/-- Splitting a string that starts with a separator-free block `t`
followed by `sep :: v` puts `t` as the first piece. -/
theorem splitOnChar_clean_head (sep : Char) (t v : List Char)
    (ht : ∀ c ∈ t, c ≠ sep) :
    splitOnChar sep (t ++ sep :: v) = t :: splitOnChar sep v := by
  induction t with
  | nil =>
    simp only [List.nil_append, splitOnChar]
    rcases h : splitOnChar sep v with _ | ⟨p, ps⟩
    · exact absurd h (splitOnChar_ne_nil sep v)
    · simp
  | cons c t ih =>
    have hc : c ≠ sep := ht c (List.mem_cons_self _ _)
    have ih' := ih (fun d hd => ht d (List.mem_cons_of_mem _ hd))
    have hcons : (c :: t) ++ sep :: v = c :: (t ++ sep :: v) := rfl
    rw [hcons, splitOnChar, ih']
    simp [hc]

/-- If the cgroup path contains `"/<marker>/"` then
`extract_container_id` finds an id (the marker is non-empty and
slash-free). -/
theorem extract_container_id_isSome (s t : List Char)
    (ht0 : t ≠ []) (ht : ∀ c ∈ t, c ≠ '/')
    (h : containsStr s ('/' :: (t ++ '/' :: []) : List Char) = true) :
    (extract_container_id s t).isSome = true := by
  have hinf : ('/' :: (t ++ '/' :: []) : List Char) <:+: s := by
    simpa [containsStr] using h
  obtain ⟨u, v, huv⟩ := hinf
  have hs : s = u ++ '/' :: (t ++ '/' :: v) := by
    rw [← huv]; simp
  subst hs
  obtain ⟨pre, hpre, hsplit⟩ := splitOnChar_append_sep '/' u (t ++ '/' :: v)
  unfold extract_container_id
  rw [hsplit, splitOnChar_clean_head '/' t v ht]
  exact extractIdScan_isSome t pre (splitOnChar '/' v) (splitOnChar_ne_nil '/' v)

/-- `get_cgroup_info` never reports a container without an id: the
classification invariant, established path by path. -/
theorem cgroupMarkStep_inv (info : CgroupInfoS) (p2 : List Char)
    (h : info.is_container = true → info.container_id.isSome = true) :
    (cgroupMarkStep info p2).is_container = true →
      (cgroupMarkStep info p2).container_id.isSome = true := by
  unfold cgroupMarkStep
  by_cases hd : containsStr p2 "/docker/".toList
  · rw [if_pos hd]
    have := extract_container_id_isSome p2 "docker".toList (by decide) (by decide)
      (by simpa using hd)
    obtain ⟨id, he⟩ := Option.isSome_iff_exists.mp this
    intro _
    show (match extract_container_id p2 "docker".toList with
      | some i => some i
      | none => info.container_id).isSome = true
    rw [he]
    rfl
  · rw [if_neg hd]
    by_cases hk : containsStr p2 "/kubepods/".toList
    · rw [if_pos hk]
      have := extract_container_id_isSome p2 "kubepods".toList (by decide) (by decide)
        (by simpa using hk)
      obtain ⟨id, he⟩ := Option.isSome_iff_exists.mp this
      intro _
      show (match extract_container_id p2 "kubepods".toList with
        | some i => some i
        | none => info.container_id).isSome = true
      rw [he]
      rfl
    · rw [if_neg hk]
      by_cases hl : containsStr p2 "/lxc/".toList
      · rw [if_pos hl]
        have := extract_container_id_isSome p2 "lxc".toList (by decide) (by decide)
          (by simpa using hl)
        obtain ⟨id, he⟩ := Option.isSome_iff_exists.mp this
        intro _
        show (match extract_container_id p2 "lxc".toList with
          | some i => some i
          | none => info.container_id).isSome = true
        rw [he]
        rfl
      · rw [if_neg hl]
        exact h

theorem cgroupLineStep_inv (info : CgroupInfoS) (line : List Char)
    (h : info.is_container = true → info.container_id.isSome = true) :
    (cgroupLineStep info line).is_container = true →
      (cgroupLineStep info line).container_id.isSome = true := by
  rcases hsp : splitOnChar ':' line with _ | ⟨p0, _ | ⟨p1, _ | ⟨p2, rest⟩⟩⟩ <;>
    simp only [cgroupLineStep, hsp]
  · exact h
  · exact h
  · exact h
  · exact cgroupMarkStep_inv _ p2 (fun hi => h hi)

theorem get_cgroup_info_inv (pid : ℕ) (file : Option (List (List Char)))
    (memLimit : Option ℕ) (cpuQuota : Option (ℤ × ℕ)) :
    (get_cgroup_info pid file memLimit cpuQuota).is_container = true →
      (get_cgroup_info pid file memLimit cpuQuota).container_id.isSome = true := by
  unfold get_cgroup_info
  rcases file with _ | lines
  · intro h; exact absurd h (by simp [emptyCgroupInfo])
  · simp only []
    have hfold : ∀ (info : CgroupInfoS),
        (info.is_container = true → info.container_id.isSome = true) →
        ((lines.foldl cgroupLineStep info).is_container = true →
          (lines.foldl cgroupLineStep info).container_id.isSome = true) := by
      induction lines with
      | nil => intro info h; exact h
      | cons l ls ih =>
        intro info h
        exact ih (cgroupLineStep info l) (cgroupLineStep_inv info l h)
    have hbase : (emptyCgroupInfo pid).is_container = true →
        (emptyCgroupInfo pid).container_id.isSome = true := by
      simp [emptyCgroupInfo]
    have h1 := hfold (emptyCgroupInfo pid) hbase
    rcases memLimit with _ | ml <;> rcases cpuQuota with _ | ⟨q, p⟩ <;>
      simpa using h1

/-! ## containers.rs — `ContainerAnalyzer::get_container_id` -/

/-- Docker-format branch of a line: `line.split('/').last()`. -/
def containerIdDockerSlash (line : List Char) : Option (List Char) :=
  if containsStr line "docker".toList then (splitOnChar '/' line).getLast?
  else none

/-- `docker-<id>.scope` branch: `line.split("docker-").nth(1)` then
`.split(".scope").next()`. -/
def containerIdDockerScope (line : List Char) : Option (List Char) :=
  if containsStr line "docker-".toList && containsStr line ".scope".toList then
    ((splitOnStr "docker-".toList line).get? 1).bind
      (fun part => (splitOnStr ".scope".toList part).head?)
  else none

/-- `libpod-<id>.scope` branch. -/
def containerIdLibpod (line : List Char) : Option (List Char) :=
  if containsStr line "libpod-".toList then
    ((splitOnStr "libpod-".toList line).get? 1).bind
      (fun part => (splitOnStr ".scope".toList part).head?)
  else none

/-- One line of `ContainerAnalyzer::get_container_id`: the three
branches are tried in order, the first `Some` returns. -/
def containerIdLine (line : List Char) : Option (List Char) :=
  match containerIdDockerSlash line with
  | some id => some id
  | none =>
    match containerIdDockerScope line with
    | some id => some id
    | none => containerIdLibpod line

/-- `ContainerAnalyzer::get_container_id`, over the lines of
`/proc/<pid>/cgroup`. -/
def analyzer_get_container_id (lines : List (List Char)) : Option (List Char) :=
  lines.findSome? containerIdLine

/-- `ContainerAnalyzer::is_containerized`, cgroup branch: the whole file
content contains one of the runtime markers.  (The mount-namespace
fallback only runs when no marker is present.) -/
def is_containerized_by_cgroup (content : List Char) : Bool :=
  containsStr content "docker".toList || containsStr content "containerd".toList ||
    containsStr content "podman".toList || containsStr content "kubepods".toList

/-! ## process.rs — the sampler -/

/-- `process::ProcessInfo`, the published per-process record.
`memory_usage` is in KB (see the field comment in process.rs). -/
structure ProcessInfo where
  pid : ℕ
  ppid : ℕ
  name : List Char
  command : List Char
  user : List Char
  cpu_usage : ℚ
  memory_usage : ℕ
  memory_percent : ℚ
  status : List Char
  start_time : ℕ
  running_time : ℕ
  uid : ℕ
  gid : ℕ
  threads : ℕ
  priority : ℤ
  nice : ℤ
  network_connections : Option ℕ
  is_container : Bool
  container_id : Option (List Char)
  cgroup_memory_limit : Option ℕ
  gpu_memory : Option ℕ
deriving DecidableEq

/-- One `/proc` entry as seen by `extract_process_info`: the sysinfo
fields of the process plus the results of the environment reads the
function performs (`/proc/<pid>/status`, `/proc/<pid>/stat`, network,
cgroup, gpu).  `none` models a failed or absent read. -/
structure SysProc where
  pid : ℕ
  parent : Option ℕ
  name : List Char
  cmd : List (List Char)
  cpu_usage : ℚ
  memory : ℕ
  status : List Char
  start_time : ℕ
  uidRead : ℕ
  gidRead : ℕ
  userName : Option (List Char)
  procStat : Option (ℤ × ℤ × ℕ)
  netConnections : Option ℕ
  cgroupLines : Option (List (List Char))
  cgroupMemLimit : Option ℕ
  cgroupCpu : Option (ℤ × ℕ)
  gpuMemoryUsed : Option ℕ

/-- `ProcessManager::extract_process_info`.  The Rust function returns
`Result` but never takes the error path (all fallible reads are
defaulted), so the model is total.  A failed `get_cgroup_info` call
(`.ok()` giving `None`) has the same effect on the record as a missing
cgroup file, so both are modelled by `cgroupLines = none`. -/
def extract_process_info (total_memory : ℕ) (now : ℕ) (sp : SysProc) : ProcessInfo :=
  let user := sp.userName.getD (natRepr sp.uidRead)
  let pnt := sp.procStat.getD (0, 0, 1)
  let cg := get_cgroup_info sp.pid sp.cgroupLines sp.cgroupMemLimit sp.cgroupCpu
  { pid := sp.pid
    ppid := sp.parent.getD 0
    name := sp.name
    command := List.intercalate [' '] sp.cmd
    user := user
    cpu_usage := sp.cpu_usage
    memory_usage := sp.memory
    memory_percent := (sp.memory : ℚ) / (total_memory : ℚ) * 100
    status := sp.status
    start_time := sp.start_time
    running_time := now - sp.start_time
    uid := sp.uidRead
    gid := sp.gidRead
    threads := pnt.2.2
    priority := pnt.1
    nice := pnt.2.1
    network_connections := sp.netConnections
    is_container := cg.is_container
    container_id := cg.container_id
    cgroup_memory_limit := cg.memory_limit
    gpu_memory := sp.gpuMemoryUsed }

/-- Last-write-wins deduplication by a key, keeping each key's final
occurrence in place: the value set of a `HashMap` filled by iterated
`insert`. -/
def lastBy {α : Type} (key : α → ℕ) (l : List α) : List α :=
  l.foldr (fun p acc => if acc.any (fun q => key q == key p) then acc else p :: acc) []

theorem lastBy_subset {α : Type} (key : α → ℕ) (l : List α) :
    ∀ x ∈ lastBy key l, x ∈ l := by
  induction l with
  | nil => simp [lastBy]
  | cons a l ih =>
    intro x hx
    simp only [lastBy, List.foldr_cons] at hx
    by_cases h : (List.foldr
        (fun p acc => if acc.any (fun q => key q == key p) then acc else p :: acc) [] l).any
        (fun q => key q == key a)
    · rw [if_pos h] at hx
      exact List.mem_cons_of_mem _ (ih x hx)
    · rw [if_neg h] at hx
      rcases List.mem_cons.mp hx with h1 | h2
      · exact h1 ▸ List.mem_cons_self _ _
      · exact List.mem_cons_of_mem _ (ih x h2)

/-- `ProcessManager::refresh`: the records published via the
`processes` map after a successful refresh (`self.processes` is keyed
by pid, so the last write per pid wins). -/
def refreshRecords (total_memory : ℕ) (now : ℕ) (table : List SysProc) : List ProcessInfo :=
  lastBy ProcessInfo.pid (table.map (extract_process_info total_memory now))

/-! ## C1 — refresh invariants -/

/-- C1: after a successful `refresh`, every published record satisfies
`pid ≥ 1`, `0 ≤ memory_percent ≤ 100`, and `is_container → container_id`
present.  The pid and memory bounds are inherited from the environment:
`/proc` enumerates pids ≥ 1 and a process RSS never exceeds total
memory; the code itself performs no clamping. -/
theorem C1_refresh_invariants (total_memory now : ℕ) (table : List SysProc)
    (hpid : ∀ sp ∈ table, 1 ≤ sp.pid)
    (hmem : ∀ sp ∈ table, sp.memory ≤ total_memory)
    (htot : 0 < total_memory) :
    ∀ rec ∈ refreshRecords total_memory now table,
      1 ≤ rec.pid ∧ 0 ≤ rec.memory_percent ∧ rec.memory_percent ≤ 100 ∧
        (rec.is_container = true → rec.container_id.isSome = true) := by
  intro rec hrec
  have hrec' := lastBy_subset ProcessInfo.pid _ rec hrec
  obtain ⟨sp, hsp, hext⟩ := List.mem_map.mp hrec'
  subst hext
  refine ⟨hpid sp hsp, ?_, ?_, ?_⟩
  · show (0 : ℚ) ≤ (sp.memory : ℚ) / (total_memory : ℚ) * 100
    positivity
  · show (sp.memory : ℚ) / (total_memory : ℚ) * 100 ≤ 100
    have h1 : (sp.memory : ℚ) ≤ (total_memory : ℚ) := by
      exact_mod_cast hmem sp hsp
    have h2 : (0 : ℚ) < (total_memory : ℚ) := by exact_mod_cast htot
    have h3 : (sp.memory : ℚ) / (total_memory : ℚ) ≤ 1 := by
      rw [div_le_one h2]; exact h1
    nlinarith
  · exact get_cgroup_info_inv sp.pid sp.cgroupLines sp.cgroupMemLimit sp.cgroupCpu

/-- A concrete one-process `/proc` table entry. -/
def spW : SysProc :=
  { pid := 42, parent := some 1, name := "bash".toList, cmd := [],
    cpu_usage := 5, memory := 250, status := "Sleep".toList, start_time := 7,
    uidRead := 0, gidRead := 0, userName := some "root".toList,
    procStat := some (20, 0, 1), netConnections := none,
    cgroupLines := some ["0::/docker/abc123def4567890".toList],
    cgroupMemLimit := none, cgroupCpu := none, gpuMemoryUsed := none }

/-- Witness for C1 at a concrete one-process table. -/
theorem C1_refresh_invariants_witness :
    1 ≤ (extract_process_info 1000 50 spW).pid ∧
    0 ≤ (extract_process_info 1000 50 spW).memory_percent ∧
    (extract_process_info 1000 50 spW).memory_percent ≤ 100 ∧
    ((extract_process_info 1000 50 spW).is_container = true →
      (extract_process_info 1000 50 spW).container_id.isSome = true) :=
  C1_refresh_invariants 1000 50 [spW] (by decide) (by decide) (by decide)
    (extract_process_info 1000 50 spW)
    (by
      rw [show refreshRecords 1000 50 [spW] =
        [extract_process_info 1000 50 spW] from rfl]
      exact List.mem_cons_self _ _)

/-! ## C7 — container id extraction for `0::/docker/abc123def4567890` -/

/-- C7 counterexample: on the cgroup content
`"0::/docker/abc123def4567890"` the sampler's classifier
(`network::get_cgroup_info`, which fills the published `ProcessRecord`)
reports `is_container = true` but truncates the container id to its
first 12 characters `"abc123def456"`, not the full trailing segment
`"abc123def4567890"` as the claim states. -/
theorem C7_counterexample :
    (get_cgroup_info 9001 (some ["0::/docker/abc123def4567890".toList]) none none).is_container
        = true ∧
      (get_cgroup_info 9001 (some ["0::/docker/abc123def4567890".toList]) none none).container_id
        = some "abc123def456".toList ∧
      (get_cgroup_info 9001 (some ["0::/docker/abc123def4567890".toList]) none none).container_id
        ≠ some "abc123def4567890".toList := by
  refine ⟨by decide, by decide, by decide⟩

/-- C7 amended: both classifiers report `is_container = true`;
`ContainerAnalyzer::get_container_id` returns the full trailing path
segment `"abc123def4567890"`, while the sampler's
`network::get_cgroup_info` stores the Docker-style short id, i.e. the
trailing segment truncated to its first 12 characters
`"abc123def456"`. -/
theorem C7_container_id_paths :
    analyzer_get_container_id ["0::/docker/abc123def4567890".toList]
        = some "abc123def4567890".toList ∧
      is_containerized_by_cgroup "0::/docker/abc123def4567890".toList = true ∧
      (get_cgroup_info 9001 (some ["0::/docker/abc123def4567890".toList]) none none).is_container
        = true ∧
      (get_cgroup_info 9001 (some ["0::/docker/abc123def4567890".toList]) none none).container_id
        = some ("abc123def4567890".toList.take 12) := by
  refine ⟨by decide, by decide, by decide, by decide⟩

/-! ## snapshots.rs — the snapshot diff engine -/

/-- `snapshots::ProcessInfo` (the snapshot row type, distinct from the
sampler's `process::ProcessInfo`). -/
structure SnapProcessInfo where
  pid : ℕ
  ppid : ℕ
  name : List Char
  command : List Char
  user : List Char
  cpu_usage : ℚ
  memory_usage : ℕ
  memory_percent : ℚ
  status : List Char
  threads : ℕ
deriving DecidableEq

/-- `snapshots::ProcessChange`. -/
structure ProcessChange where
  pid : ℕ
  name : List Char
  old_cpu : ℚ
  new_cpu : ℚ
  old_memory : ℕ
  new_memory : ℕ
deriving DecidableEq

/-- `snapshots::has_significant_change`: CPU delta above 10 (percent
points) or memory delta above 10240 KB (10 MiB). -/
def has_significant_change (p1 p2 : SnapProcessInfo) : Bool :=
  decide (|p2.cpu_usage - p1.cpu_usage| > 10) ||
    decide (((p2.memory_usage : ℤ) - (p1.memory_usage : ℤ)).natAbs > 10240)

/-- Lookup in the pid-keyed `HashMap` built by iterated `insert`:
the last inserted record with that pid. -/
def pidLookup (l : List SnapProcessInfo) (i : ℕ) : Option SnapProcessInfo :=
  (l.filter (fun p => p.pid == i)).getLast?

/-- `SnapshotManager::compare_snapshots`, new processes: pids in B
(the second snapshot) but not in A, with B's record. -/
def diffNew (s1 s2 : List SnapProcessInfo) : List SnapProcessInfo :=
  (lastBy SnapProcessInfo.pid s2).filter (fun p => (pidLookup s1 p.pid).isNone)

/-- `compare_snapshots`, terminated processes: pids in A but not in B,
with A's record. -/
def diffTerminated (s1 s2 : List SnapProcessInfo) : List SnapProcessInfo :=
  (lastBy SnapProcessInfo.pid s1).filter (fun p => (pidLookup s2 p.pid).isNone)

/-- `compare_snapshots`, changed processes: shared pids whose records
differ significantly. -/
def diffChanged (s1 s2 : List SnapProcessInfo) : List ProcessChange :=
  (lastBy SnapProcessInfo.pid s2).filterMap (fun p2 =>
    match pidLookup s1 p2.pid with
    | some p1 =>
      if has_significant_change p1 p2 then
        some { pid := p2.pid, name := p2.name, old_cpu := p1.cpu_usage,
               new_cpu := p2.cpu_usage, old_memory := p1.memory_usage,
               new_memory := p2.memory_usage }
      else none
    | none => none)

/-- Spec-side definition (`compare_snapshots` does not compute it): the
shared pids whose records do not differ significantly, i.e. the
remainder of the partition described by the claim. -/
def diffUnchanged (s1 s2 : List SnapProcessInfo) : List SnapProcessInfo :=
  (lastBy SnapProcessInfo.pid s2).filter (fun p2 =>
    match pidLookup s1 p2.pid with
    | some p1 => !has_significant_change p1 p2
    | none => false)

/-! ### Lookup and deduplication lemmas -/

theorem lastBy_eq_self {α : Type} (key : α → ℕ) (l : List α)
    (h : (l.map key).Nodup) : lastBy key l = l := by
  induction l with
  | nil => rfl
  | cons a l ih =>
    simp only [List.map_cons, List.nodup_cons] at h
    have hrest : lastBy key l = l := ih h.2
    have hnot : (lastBy key l).any (fun q => key q == key a) = false := by
      rw [hrest]
      rw [List.any_eq_false]
      intro q hq
      simp only [beq_iff_eq]
      intro hkey
      exact h.1 (hkey ▸ List.mem_map_of_mem key hq)
    show (if (lastBy key l).any (fun q => key q == key a) then lastBy key l
      else a :: lastBy key l) = a :: l
    rw [hnot]
    simp [hrest]

theorem pidLookup_eq_some {l : List SnapProcessInfo} {i : ℕ} {p : SnapProcessInfo}
    (h : pidLookup l i = some p) : p ∈ l ∧ p.pid = i := by
  unfold pidLookup at h
  have hmem : p ∈ l.filter (fun p => p.pid == i) := by
    obtain ⟨hne, heq⟩ := List.mem_getLast?_eq_getLast (show p ∈ _ from h)
    exact heq ▸ List.getLast_mem hne
  have := List.mem_filter.mp hmem
  exact ⟨this.1, by simpa using this.2⟩

theorem pidLookup_isNone_iff (l : List SnapProcessInfo) (i : ℕ) :
    (pidLookup l i).isNone = true ↔ i ∉ l.map SnapProcessInfo.pid := by
  unfold pidLookup
  rw [Option.isNone_iff_eq_none, List.getLast?_eq_none_iff]
  constructor
  · intro h hmem
    obtain ⟨p, hp, hpid⟩ := List.mem_map.mp hmem
    have : p ∈ l.filter (fun p => p.pid == i) :=
      List.mem_filter.mpr ⟨hp, by simpa using hpid⟩
    rw [h] at this
    exact absurd this (List.not_mem_nil p)
  · intro h
    rw [List.filter_eq_nil]
    intro p hp hpid
    exact h (List.mem_map.mpr ⟨p, hp, by simpa using hpid⟩)

theorem filter_pid_eq_singleton {l : List SnapProcessInfo}
    (h : (l.map SnapProcessInfo.pid).Nodup) {p : SnapProcessInfo} (hp : p ∈ l) :
    l.filter (fun q => q.pid == p.pid) = [p] := by
  induction l with
  | nil => exact absurd hp (List.not_mem_nil p)
  | cons a l ih =>
    simp only [List.map_cons, List.nodup_cons] at h
    rw [List.filter_cons]
    rcases List.mem_cons.mp hp with he | hm
    · have hnil : l.filter (fun q => q.pid == p.pid) = [] := by
        rw [List.filter_eq_nil_iff]
        intro q hq hqe
        have hqp : q.pid = p.pid := by simpa using hqe
        rw [he] at hqp
        exact h.1 (hqp ▸ List.mem_map_of_mem _ hq)
      rw [← he]
      simp [hnil]
    · have hne : (a.pid == p.pid) = false := by
        rw [beq_eq_false_iff_ne]
        intro he
        exact h.1 (he ▸ List.mem_map_of_mem _ hm)
      rw [hne]
      simpa using ih h.2 hm

theorem pidLookup_self {l : List SnapProcessInfo}
    (h : (l.map SnapProcessInfo.pid).Nodup) {p : SnapProcessInfo} (hp : p ∈ l) :
    pidLookup l p.pid = some p := by
  unfold pidLookup
  rw [filter_pid_eq_singleton h hp]
  rfl

/-! ### Counting lemmas for the diff partition -/

theorem length_filterMap_eq_length_filter {α β : Type} (f : α → Option β) (l : List α) :
    (l.filterMap f).length = (l.filter (fun a => (f a).isSome)).length := by
  induction l with
  | nil => rfl
  | cons a l ih =>
    rw [List.filterMap_cons, List.filter_cons]
    rcases hf : f a with _ | b <;> simp [hf, ih]

theorem length_filter_add_length_filter {α : Type} (p q : α → Bool) (l : List α)
    (hdisj : ∀ a ∈ l, ¬(p a = true ∧ q a = true)) :
    (l.filter p).length + (l.filter q).length =
      (l.filter (fun a => p a || q a)).length := by
  induction l with
  | nil => rfl
  | cons a l ih =>
    have ih' := ih (fun x hx => hdisj x (List.mem_cons_of_mem a hx))
    have ha := hdisj a (List.mem_cons_self a l)
    rcases hp : p a with _ | _ <;> rcases hq : q a with _ | _
    · simp [List.filter_cons, hp, hq]
      omega
    · simp [List.filter_cons, hp, hq]
      omega
    · simp [List.filter_cons, hp, hq]
      omega
    · exact absurd ⟨hp, hq⟩ ha

/-- For a pid-unique list, filtering with a pid predicate counts the
pids satisfying it. -/
theorem length_filter_pid_eq_card (l : List SnapProcessInfo) (q : ℕ → Bool)
    (h : (l.map SnapProcessInfo.pid).Nodup) :
    (l.filter (fun p => q p.pid)).length =
      ((l.map SnapProcessInfo.pid).toFinset.filter (fun i => q i = true)).card := by
  induction l with
  | nil => rfl
  | cons a l ih =>
    simp only [List.map_cons, List.nodup_cons] at h
    have ih' := ih h.2
    have hnot : a.pid ∉ (l.map SnapProcessInfo.pid).toFinset := by
      rw [List.mem_toFinset]; exact h.1
    rw [List.filter_cons, List.map_cons, List.toFinset_cons, Finset.filter_insert]
    rcases hq : q a.pid with _ | _
    · simpa using ih'
    · simp only [if_true, eq_self_iff_true]
      rw [Finset.card_insert_of_not_mem (fun hmem => hnot (Finset.mem_of_mem_filter _ hmem))]
      simpa using ih'

/-- C2: `compare_snapshots` partitions the union of the two pid sets.
With pid-unique snapshots: `new` are B's records at pids absent from A,
`terminated` are A's records at pids absent from B, `new` and
`terminated` touch disjoint pid sets, a shared pid appears in `changed`
exactly when `has_significant_change` fires (CPU delta > 10 or RSS
delta > 10 MiB), and the four classes together count
`|pids(A) ∪ pids(B)|`. -/
theorem C2_compare_snapshots_partition (s1 s2 : List SnapProcessInfo)
    (h1 : (s1.map SnapProcessInfo.pid).Nodup)
    (h2 : (s2.map SnapProcessInfo.pid).Nodup) :
    ((diffNew s1 s2).length + (diffTerminated s1 s2).length + (diffChanged s1 s2).length +
        (diffUnchanged s1 s2).length =
      ((s1.map SnapProcessInfo.pid).toFinset ∪ (s2.map SnapProcessInfo.pid).toFinset).card)
    ∧ (∀ p ∈ diffNew s1 s2, p ∈ s2 ∧ p.pid ∉ s1.map SnapProcessInfo.pid)
    ∧ (∀ p ∈ diffTerminated s1 s2, p ∈ s1 ∧ p.pid ∉ s2.map SnapProcessInfo.pid)
    ∧ (∀ p ∈ diffNew s1 s2, ∀ q ∈ diffTerminated s1 s2, p.pid ≠ q.pid)
    ∧ (∀ p1 ∈ s1, ∀ p2 ∈ s2, p1.pid = p2.pid →
        (({ pid := p2.pid, name := p2.name, old_cpu := p1.cpu_usage,
            new_cpu := p2.cpu_usage, old_memory := p1.memory_usage,
            new_memory := p2.memory_usage } : ProcessChange) ∈ diffChanged s1 s2 ↔
          has_significant_change p1 p2 = true)) := by
  have hl1 : lastBy SnapProcessInfo.pid s1 = s1 := lastBy_eq_self _ _ h1
  have hl2 : lastBy SnapProcessInfo.pid s2 = s2 := lastBy_eq_self _ _ h2
  set A := (s1.map SnapProcessInfo.pid).toFinset with hA
  set B := (s2.map SnapProcessInfo.pid).toFinset with hB
  refine ⟨?_, ?_, ?_, ?_, ?_⟩
  · -- cardinality partition
    have hnew : (diffNew s1 s2).length =
        (B.filter (fun i => ((pidLookup s1 i).isNone : Prop))).card := by
      unfold diffNew
      rw [hl2, length_filter_pid_eq_card s2 (fun i => (pidLookup s1 i).isNone) h2]
    have hterm : (diffTerminated s1 s2).length =
        (A.filter (fun i => ((pidLookup s2 i).isNone : Prop))).card := by
      unfold diffTerminated
      rw [hl1, length_filter_pid_eq_card s1 (fun i => (pidLookup s2 i).isNone) h1]
    have hchB : (diffChanged s1 s2).length =
        (s2.filter (fun p2 => match pidLookup s1 p2.pid with
          | some p1 => has_significant_change p1 p2
          | none => false)).length := by
      unfold diffChanged
      rw [hl2, length_filterMap_eq_length_filter]
      congr 1
      apply List.filter_congr
      intro p2 _
      rcases pidLookup s1 p2.pid with _ | p1
      · rfl
      · by_cases hs : has_significant_change p1 p2 <;> simp [hs]
    have hunch : (diffUnchanged s1 s2).length =
        (s2.filter (fun p2 => match pidLookup s1 p2.pid with
          | some p1 => !has_significant_change p1 p2
          | none => false)).length := by
      unfold diffUnchanged
      rw [hl2]
    have hsum : (diffChanged s1 s2).length + (diffUnchanged s1 s2).length =
        (s2.filter (fun p2 => (pidLookup s1 p2.pid).isSome)).length := by
      rw [hchB, hunch, length_filter_add_length_filter]
      · congr 1
        apply List.filter_congr
        intro p2 _
        rcases pidLookup s1 p2.pid with _ | p1
        · rfl
        · show (has_significant_change p1 p2 || !has_significant_change p1 p2) =
            (some p1).isSome
          rcases has_significant_change p1 p2 with _ | _ <;> rfl
      · intro p2 _
        rcases pidLookup s1 p2.pid with _ | p1
        · simp
        · rcases has_significant_change p1 p2 with _ | _ <;> simp
    have hshared : (s2.filter (fun p2 => (pidLookup s1 p2.pid).isSome)).length =
        (B.filter (fun i => ((pidLookup s1 i).isSome : Prop))).card := by
      rw [length_filter_pid_eq_card s2 (fun i => (pidLookup s1 i).isSome) h2]
    have hBfilt : B.filter (fun i => ((pidLookup s1 i).isNone : Prop)) = B \ A := by
      ext i
      simp only [Finset.mem_filter, Finset.mem_sdiff, hA, List.mem_toFinset]
      constructor
      · rintro ⟨hi, hn⟩
        exact ⟨hi, (pidLookup_isNone_iff s1 i).mp hn⟩
      · rintro ⟨hi, hn⟩
        exact ⟨hi, (pidLookup_isNone_iff s1 i).mpr hn⟩
    have hAfilt : A.filter (fun i => ((pidLookup s2 i).isNone : Prop)) = A \ B := by
      ext i
      simp only [Finset.mem_filter, Finset.mem_sdiff, hB, List.mem_toFinset]
      constructor
      · rintro ⟨hi, hn⟩
        exact ⟨hi, (pidLookup_isNone_iff s2 i).mp hn⟩
      · rintro ⟨hi, hn⟩
        exact ⟨hi, (pidLookup_isNone_iff s2 i).mpr hn⟩
    have hBshared : B.filter (fun i => ((pidLookup s1 i).isSome : Prop)) = B ∩ A := by
      ext i
      simp only [Finset.mem_filter, Finset.mem_inter, hA, List.mem_toFinset]
      constructor
      · rintro ⟨hi, hs⟩
        refine ⟨hi, ?_⟩
        rcases hlk : pidLookup s1 i with _ | p
        · rw [hlk] at hs; exact absurd hs (by simp)
        · obtain ⟨hp, hpe⟩ := pidLookup_eq_some hlk
          exact hpe ▸ List.mem_map_of_mem _ hp
      · rintro ⟨hi, hmem⟩
        refine ⟨hi, ?_⟩
        obtain ⟨p, hp, hpe⟩ := List.mem_map.mp hmem
        rw [← hpe, pidLookup_self h1 hp]
        rfl
    have h5 : (diffChanged s1 s2).length + (diffUnchanged s1 s2).length = (B ∩ A).card := by
      rw [hsum, hshared, hBshared]
    have h6 : (diffNew s1 s2).length = (B \ A).card := by rw [hnew, hBfilt]
    have h7 : (diffTerminated s1 s2).length = (A \ B).card := by rw [hterm, hAfilt]
    have e1 : (A \ B).card + B.card = (A ∪ B).card := Finset.card_sdiff_add_card A B
    have e2 : (B \ A).card + (B ∩ A).card = B.card := Finset.card_sdiff_add_card_inter B A
    omega
  · -- new processes: B's record, pid not in A
    intro p hp
    unfold diffNew at hp
    rw [hl2] at hp
    have := List.mem_filter.mp hp
    exact ⟨this.1, (pidLookup_isNone_iff s1 p.pid).mp (by simpa using this.2)⟩
  · -- terminated: A's record, pid not in B
    intro p hp
    unfold diffTerminated at hp
    rw [hl1] at hp
    have := List.mem_filter.mp hp
    exact ⟨this.1, (pidLookup_isNone_iff s2 p.pid).mp (by simpa using this.2)⟩
  · -- new and terminated pids are disjoint
    intro p hp q hq heq
    unfold diffNew at hp
    unfold diffTerminated at hq
    rw [hl2] at hp
    rw [hl1] at hq
    have hpn := List.mem_filter.mp hp
    have hqm := List.mem_filter.mp hq
    have hnotin : p.pid ∉ s1.map SnapProcessInfo.pid :=
      (pidLookup_isNone_iff s1 p.pid).mp (by simpa using hpn.2)
    exact hnotin (heq ▸ List.mem_map_of_mem _ hqm.1)
  · -- changed ↔ significant, per shared pid
    intro p1 hp1 p2 hp2 hpid
    have hlk : pidLookup s1 p2.pid = some p1 := by
      rw [← hpid]; exact pidLookup_self h1 hp1
    unfold diffChanged
    rw [hl2]
    constructor
    · intro hmem
      obtain ⟨p2', hp2', hf⟩ := List.mem_filterMap.mp hmem
      rcases hlk' : pidLookup s1 p2'.pid with _ | p1'
      · rw [hlk'] at hf; exact absurd hf (by simp)
      · rw [hlk'] at hf
        simp only [] at hf
        by_cases hs : has_significant_change p1' p2'
        · rw [if_pos hs] at hf
          have hpe : p2'.pid = p2.pid := by
            have := congrArg ProcessChange.pid (Option.some.inj hf)
            simpa using this
          have hp2e : p2' = p2 := List.inj_on_of_nodup_map h2 hp2' hp2 hpe
          subst hp2e
          rw [hlk] at hlk'
          have hpp : p1' = p1 := (Option.some.inj hlk').symm
          exact hpp ▸ hs
        · rw [if_neg hs] at hf
          exact absurd hf (by simp)
    · intro hs
      refine List.mem_filterMap.mpr ⟨p2, hp2, ?_⟩
      rw [hlk]
      simp only []
      rw [if_pos hs]

/-- A concrete snapshot record for the C2 scenario. -/
def snapW (i : ℕ) (c : ℚ) (m : ℕ) : SnapProcessInfo :=
  { pid := i, ppid := 0, name := [], command := [], user := [],
    cpu_usage := c, memory_usage := m, memory_percent := 0,
    status := [], threads := 1 }

theorem C2_compare_snapshots_partition_witness :
    (diffNew [snapW 1 10 1024, snapW 3 0 0] [snapW 1 25 2048]).length +
        (diffTerminated [snapW 1 10 1024, snapW 3 0 0] [snapW 1 25 2048]).length +
        (diffChanged [snapW 1 10 1024, snapW 3 0 0] [snapW 1 25 2048]).length +
        (diffUnchanged [snapW 1 10 1024, snapW 3 0 0] [snapW 1 25 2048]).length =
      (([snapW 1 10 1024, snapW 3 0 0].map SnapProcessInfo.pid).toFinset ∪
        ([snapW 1 25 2048].map SnapProcessInfo.pid).toFinset).card :=
  (C2_compare_snapshots_partition [snapW 1 10 1024, snapW 3 0 0]
    [snapW 1 25 2048] (by decide) (by decide)).1

/-! ## history.rs — the history store -/

/-- `history::HistoricalProcessData` / the `process_history` table row. -/
structure HistRow where
  timestamp : ℤ
  pid : ℕ
  name : List Char
  user_name : List Char
  cpu_usage : ℚ
  memory_usage : ℕ
  memory_percent : ℚ
  command : List Char
deriving DecidableEq

/-- `HistoryManager::record_processes`: appends one row per record, all
carrying the batch timestamp, in list order (auto-increment ids follow
insertion order). -/
def record_processes (store : List HistRow) (ts : ℤ) (ps : List ProcessInfo) : List HistRow :=
  store ++ ps.map (fun p =>
    { timestamp := ts, pid := p.pid, name := p.name, user_name := p.user,
      cpu_usage := p.cpu_usage, memory_usage := p.memory_usage,
      memory_percent := p.memory_percent, command := p.command })

/-- The SQL predicate of `get_process_history`:
`pid = ? AND timestamp BETWEEN ? AND ?` — SQLite's `BETWEEN` is
inclusive at both ends. -/
def histRowMatches (pid : ℕ) (t0 t1 : ℤ) (r : HistRow) : Bool :=
  r.pid == pid && decide (t0 ≤ r.timestamp) && decide (r.timestamp ≤ t1)

/-- `HistoryManager::get_process_history`: the matching rows ordered by
`timestamp ASC` (ties resolved arbitrarily by SQLite; the model uses a
stable sort). -/
def get_process_history (store : List HistRow) (pid : ℕ) (t0 t1 : ℤ) : List HistRow :=
  (store.filter (histRowMatches pid t0 t1)).mergeSort
    (fun a b => decide (a.timestamp ≤ b.timestamp))

/-! ## C6 — history range query -/

/-- A concrete history row whose timestamp sits exactly at a query's
upper bound. -/
def histRowAt5 : HistRow :=
  { timestamp := 5, pid := 1, name := [], user_name := [], cpu_usage := 0,
    memory_usage := 0, memory_percent := 0, command := [] }

/-- C6 counterexample: `BETWEEN` is inclusive, so a row whose timestamp
equals the upper bound `to = 5` is returned, where the claim's half-open
interval `[from, to)` would exclude it. -/
theorem C6_counterexample :
    get_process_history [histRowAt5] 1 0 5 = [histRowAt5] ∧ histRowAt5.timestamp = 5 := by
  constructor
  · unfold get_process_history
    rw [show ([histRowAt5].filter (histRowMatches 1 0 5)) = [histRowAt5] from by decide]
    exact List.mergeSort_singleton _
  · rfl

/-- C6 amended: `get_process_history(pid, from, to)` returns exactly the
stored rows whose pid matches and whose timestamp lies in the closed
interval `[from, to]` (both endpoints included), sorted ascending by
timestamp. -/
theorem C6_get_process_history (store : List HistRow) (pid : ℕ) (t0 t1 : ℤ) :
    (get_process_history store pid t0 t1).Perm
        (store.filter (fun r => r.pid == pid &&
          decide (t0 ≤ r.timestamp) && decide (r.timestamp ≤ t1)))
      ∧ (get_process_history store pid t0 t1).Pairwise
          (fun a b => a.timestamp ≤ b.timestamp) := by
  constructor
  · exact List.mergeSort_perm _ _
  · have h := @List.sorted_mergeSort HistRow
      (fun a b : HistRow => decide (a.timestamp ≤ b.timestamp))
      (fun a b c hab hbc => by
        simp only [decide_eq_true_eq] at *
        exact le_trans hab hbc)
      (fun a b => by
        simp only [Bool.or_eq_true, decide_eq_true_eq]
        exact le_total a.timestamp b.timestamp)
      (store.filter (histRowMatches pid t0 t1))
    exact h.imp (fun hab => by simpa using hab)

/-! ## affinity.rs — CPU affinity list formatting and parsing -/

/-- One collapsed range as formatted by `format_affinity_list`:
`"a"` for a singleton, `"a-b"` for a run. -/
def rangeStr (s e : ℕ) : List Char :=
  if s = e then natRepr s else natRepr s ++ '-' :: natRepr e

/-- The range-collapsing loop of `format_affinity_list` over `cpus[1..]`,
carrying the current run `[s, e]`; emits the pending run before starting
a new one and emits the final run at the end. -/
def affinityRanges : List ℕ → ℕ → ℕ → List (List Char)
  | [], s, e => [rangeStr s e]
  | cpu :: tl, s, e =>
    if cpu = e + 1 then affinityRanges tl s cpu
    else rangeStr s e :: affinityRanges tl cpu cpu

/-- `affinity::format_affinity_list`: collapse runs to `a-b`, join with
commas; the empty list formats as `"none"`. -/
def format_affinity_list (cpus : List ℕ) : List Char :=
  match cpus with
  | [] => "none".toList
  | c :: rest => List.intercalate [','] (affinityRanges rest c c)

/-- One comma-separated part of `parse_affinity_string`: a range `a-b`
expands to `a..=b`; a part that splits on `'-'` into anything other than
exactly two pieces is silently skipped; a plain number parses directly.
Parse failures abort the whole call (`none`). -/
def parsePart (part : List Char) : Option (List ℕ) :=
  if part.contains '-' then
    match splitOnChar '-' part with
    | [a, b] =>
      match parseNatRust a with
      | none => none
      | some s =>
        match parseNatRust b with
        | none => none
        | some e => some (List.range' s (e + 1 - s))
    | _ => some []
  else (parseNatRust part).map (fun n => [n])

/-- Error-propagating accumulation of parsed parts (the Rust loop pushes
into `cpus` and aborts on the first parse error via `?`). -/
def parseStep (acc : Option (List ℕ)) (part : List Char) : Option (List ℕ) :=
  match acc with
  | none => none
  | some cs =>
    match parsePart part with
    | none => none
    | some new => some (cs ++ new)

/-- `affinity::parse_affinity_string`. -/
def parse_affinity_string (s : List Char) : Option (List ℕ) :=
  (splitOnChar ',' s).foldl parseStep (some [])

/-! ### Round-trip lemmas -/

theorem splitOnChar_no_sep (sep : Char) (p : List Char) (h : ∀ c ∈ p, c ≠ sep) :
    splitOnChar sep p = [p] := by
  induction p with
  | nil => rfl
  | cons c cs ih =>
    have hc : c ≠ sep := h c (List.mem_cons_self _ _)
    have ih' := ih (fun d hd => h d (List.mem_cons_of_mem _ hd))
    rw [splitOnChar, ih']
    simp [hc]

theorem intercalate_cons_cons (x : Char) (a b : List Char) (l : List (List Char)) :
    List.intercalate [x] (a :: b :: l) = a ++ x :: List.intercalate [x] (b :: l) := by
  simp [List.intercalate, List.intersperse]

theorem intercalate_singleton (x : Char) (a : List Char) :
    List.intercalate [x] [a] = a := by
  simp [List.intercalate]

/-- Splitting the comma-joined parts back, provided no part contains a
comma. -/
theorem splitOnChar_intercalate (sep : Char) (parts : List (List Char))
    (hne : parts ≠ []) (hnosep : ∀ p ∈ parts, ∀ c ∈ p, c ≠ sep) :
    splitOnChar sep (List.intercalate [sep] parts) = parts := by
  induction parts with
  | nil => exact absurd rfl hne
  | cons a parts ih =>
    rcases parts with _ | ⟨b, rest⟩
    · rw [intercalate_singleton]
      exact splitOnChar_no_sep sep a (hnosep a (List.mem_cons_self _ _))
    · rw [intercalate_cons_cons]
      rw [splitOnChar_clean_head sep a _ (hnosep a (List.mem_cons_self _ _))]
      rw [ih (by simp) (fun p hp => hnosep p (List.mem_cons_of_mem _ hp))]

theorem rangeStr_no_sep (s e : ℕ) : ∀ c ∈ rangeStr s e, c ≠ ',' := by
  intro c hc
  unfold rangeStr at hc
  split at hc
  · have := mem_natRepr_isDigit hc
    intro he; rw [he] at this; exact absurd this (by decide)
  · rcases List.mem_append.mp hc with h1 | h2
    · have := mem_natRepr_isDigit h1
      intro he; rw [he] at this; exact absurd this (by decide)
    · rcases List.mem_cons.mp h2 with h3 | h4
      · rw [h3]; decide
      · have := mem_natRepr_isDigit h4
        intro he; rw [he] at this; exact absurd this (by decide)

theorem natRepr_no_dash (n : ℕ) : ∀ c ∈ natRepr n, c ≠ '-' := by
  intro c hc he
  have := mem_natRepr_isDigit hc
  rw [he] at this
  exact absurd this (by decide)

/-- Parsing one formatted range recovers exactly the run `s..=e`. -/
theorem parsePart_rangeStr (s e : ℕ) (h : s ≤ e) :
    parsePart (rangeStr s e) = some (List.range' s (e + 1 - s)) := by
  unfold parsePart rangeStr
  by_cases hse : s = e
  · rw [if_pos hse]
    have hnd : (natRepr s).contains '-' = false := by
      rw [List.contains_eq_any_beq, List.any_eq_false]
      intro c hc
      simpa using (natRepr_no_dash s c hc).symm
    rw [hnd]
    simp only [Bool.false_eq_true, if_false, parseNatRust_natRepr, Option.map_some']
    subst hse
    have : s + 1 - s = 1 := by omega
    rw [this, List.range'_one]
  · rw [if_neg hse]
    have hmem : '-' ∈ natRepr s ++ '-' :: natRepr e :=
      List.mem_append.mpr (Or.inr (List.mem_cons_self _ _))
    have hcont : (natRepr s ++ '-' :: natRepr e).contains '-' = true := by
      rw [List.contains_eq_any_beq, List.any_eq_true]
      exact ⟨'-', hmem, by simp⟩
    rw [hcont]
    simp only [if_true]
    rw [splitOnChar_clean_head '-' (natRepr s) (natRepr e) (natRepr_no_dash s),
      splitOnChar_no_sep '-' (natRepr e) (natRepr_no_dash e)]
    simp [parseNatRust_natRepr]

theorem affinityRanges_no_sep (tl : List ℕ) (s e : ℕ) :
    ∀ p ∈ affinityRanges tl s e, ∀ c ∈ p, c ≠ ',' := by
  induction tl generalizing s e with
  | nil =>
    intro p hp
    rw [show affinityRanges [] s e = [rangeStr s e] from rfl] at hp
    rcases List.mem_cons.mp hp with h1 | h2
    · rw [h1]; exact rangeStr_no_sep s e
    · exact absurd h2 (List.not_mem_nil p)
  | cons cpu tl ih =>
    intro p hp
    rw [show affinityRanges (cpu :: tl) s e =
      (if cpu = e + 1 then affinityRanges tl s cpu
        else rangeStr s e :: affinityRanges tl cpu cpu) from rfl] at hp
    split at hp
    · exact ih s cpu p hp
    · rcases List.mem_cons.mp hp with h1 | h2
      · rw [h1]; exact rangeStr_no_sep s e
      · exact ih cpu cpu p h2

theorem affinityRanges_ne_nil (tl : List ℕ) (s e : ℕ) :
    affinityRanges tl s e ≠ [] := by
  induction tl generalizing s e with
  | nil => simp [affinityRanges]
  | cons cpu tl ih =>
    rw [show affinityRanges (cpu :: tl) s e =
      (if cpu = e + 1 then affinityRanges tl s cpu
        else rangeStr s e :: affinityRanges tl cpu cpu) from rfl]
    split
    · exact ih s cpu
    · simp

/-- Folding the parser over the emitted ranges recovers the pending run
followed by the remaining cpus. -/
theorem affinityRanges_parse (tl : List ℕ) (s e : ℕ) (hse : s ≤ e)
    (hchain : List.Chain (· < ·) e tl) (acc : List ℕ) :
    (affinityRanges tl s e).foldl parseStep (some acc) =
      some (acc ++ List.range' s (e + 1 - s) ++ tl) := by
  induction tl generalizing s e acc with
  | nil =>
    rw [show affinityRanges [] s e = [rangeStr s e] from rfl]
    simp only [List.foldl_cons, List.foldl_nil, parseStep, parsePart_rangeStr s e hse]
    simp
  | cons cpu tl ih =>
    rw [show affinityRanges (cpu :: tl) s e =
      (if cpu = e + 1 then affinityRanges tl s cpu
        else rangeStr s e :: affinityRanges tl cpu cpu) from rfl]
    rw [List.chain_cons] at hchain
    obtain ⟨helt, hchain'⟩ := hchain
    by_cases heq : cpu = e + 1
    · rw [if_pos heq]
      have := ih s cpu (by omega) hchain' acc
      rw [this]
      have hr : List.range' s (cpu + 1 - s) = List.range' s (e + 1 - s) ++ [cpu] := by
        have h1 : cpu + 1 - s = (e + 1 - s) + 1 := by omega
        rw [h1, List.range'_concat]
        have h2 : s + 1 * (e + 1 - s) = cpu := by omega
        rw [h2]
      rw [hr]
      simp
    · rw [if_neg heq]
      simp only [List.foldl_cons, parseStep, parsePart_rangeStr s e hse]
      have := ih cpu cpu le_rfl hchain' (acc ++ List.range' s (e + 1 - s))
      rw [this]
      have hr : List.range' cpu (cpu + 1 - cpu) = [cpu] := by
        have : cpu + 1 - cpu = 1 := by omega
        rw [this, List.range'_one]
      rw [hr]
      simp

/-! ## C9 — affinity round trip -/

/-- C9: for every non-empty strictly sorted list of CPU indices drawn
from `[0, 1024)`, parsing the formatted affinity string recovers the
list exactly (hence also as a set), and the empty list formats as
`"none"`. -/
theorem C9_affinity_round_trip (cpus : List ℕ) (hne : cpus ≠ [])
    (hsort : List.Sorted (· < ·) cpus) (hlt : ∀ c ∈ cpus, c < 1024) :
    parse_affinity_string (format_affinity_list cpus) = some cpus ∧
      (∀ l, parse_affinity_string (format_affinity_list cpus) = some l →
        l.toFinset = cpus.toFinset) ∧
      format_affinity_list [] = "none".toList := by
  rcases cpus with _ | ⟨c, rest⟩
  · exact absurd rfl hne
  · have hchain : List.Chain (· < ·) c rest := List.chain_iff_pairwise.mpr hsort
    have hmain : parse_affinity_string (format_affinity_list (c :: rest)) =
        some (c :: rest) := by
      show (splitOnChar ',' (List.intercalate [','] (affinityRanges rest c c))).foldl
        parseStep (some []) = some (c :: rest)
      rw [splitOnChar_intercalate ',' _ (affinityRanges_ne_nil rest c c)
        (affinityRanges_no_sep rest c c)]
      rw [affinityRanges_parse rest c c le_rfl hchain []]
      have h1 : List.range' c (c + 1 - c) = [c] := by
        rw [show c + 1 - c = 1 from by omega, List.range'_one]
      rw [h1]
      simp
    refine ⟨hmain, ?_, rfl⟩
    intro l hl
    rw [hmain] at hl
    rw [Option.some.inj hl]

/-- Witness for C9 at `cpus = [0, 1, 3, 4, 5]` (the spec's scenario S2,
where the formatted string is `"0-1,3-5"`). -/
theorem C9_affinity_round_trip_witness :
    parse_affinity_string (format_affinity_list [0, 1, 3, 4, 5]) =
      some [0, 1, 3, 4, 5] :=
  (C9_affinity_round_trip [0, 1, 3, 4, 5] (by decide) (by decide) (by decide)).1

/-! ## anomaly.rs — the anomaly detector

The source computes `(mean, std_dev)` with `std_dev = √variance` and
compares `std_dev` and `|z| = |current − mean|/std_dev` against
thresholds.  The model carries the exact rational variance and performs
the same comparisons in squared form; the `sqrt` bridging lemmas below
prove the two formulations equivalent over ℝ.  The anomaly record keeps
the fields claims depend on; `severity`, `threshold` and `description`
(derived reporting data involving `√variance`) are omitted. -/

inductive AnomalyType where
  | CpuSpike
  | MemorySpike
  | SuddenTermination
  | RapidRespawn
  | ExcessiveNetworkConnections
  | UnusualGpuUsage
deriving DecidableEq

/-- `anomaly::ProcessDataPoint`; `memory_usage` is in KB (the unit of
`process::ProcessInfo::memory_usage`). -/
structure ProcessDataPoint where
  cpu_usage : ℚ
  memory_usage : ℕ
  network_connections : Option ℕ
  gpu_memory : Option ℕ
  timestamp : ℤ
deriving DecidableEq

/-- `anomaly::ProcessStats`: the bounded per-PID ring. -/
structure ProcessStatsS where
  data_points : List ProcessDataPoint
  max_history : ℕ
deriving DecidableEq

/-- `ProcessStats::add_data_point`: push back, evict the oldest when
over capacity. -/
def add_data_point (st : ProcessStatsS) (d : ProcessDataPoint) : ProcessStatsS :=
  let pts := st.data_points ++ [d]
  { st with data_points := if pts.length > st.max_history then pts.tail else pts }

def listMean (l : List ℚ) : ℚ := l.sum / l.length

def listVariance (l : List ℚ) : ℚ :=
  (l.map (fun v => (v - listMean l) ^ 2)).sum / l.length

/-- `ProcessStats::calculate_cpu_stats`, carrying `(mean, variance)`
instead of the source's `(mean, √variance)`. -/
def calculate_cpu_stats_sq (st : ProcessStatsS) : ℚ × ℚ :=
  if st.data_points = [] then (0, 0)
  else
    let values := st.data_points.map (·.cpu_usage)
    (listMean values, listVariance values)

/-- `ProcessStats::calculate_memory_stats`, carrying `(mean, variance)`. -/
def calculate_memory_stats_sq (st : ProcessStatsS) : ℚ × ℚ :=
  if st.data_points = [] then (0, 0)
  else
    let values := st.data_points.map (fun d => (d.memory_usage : ℚ))
    (listMean values, listVariance values)

structure AnomalyS where
  anomaly_type : AnomalyType
  pid : ℕ
  process_name : List Char
  timestamp : ℤ
  current_value : ℚ
  expected_value : ℚ
deriving DecidableEq

/-- `anomaly::AnomalyDetectorConfig`. -/
structure AnomalyConfig where
  cpu_threshold_sigma : ℚ
  memory_threshold_sigma : ℚ
  network_connection_threshold : ℕ
  min_data_points : ℕ
  history_size : ℕ
deriving DecidableEq

def defaultAnomalyConfig : AnomalyConfig :=
  { cpu_threshold_sigma := 3, memory_threshold_sigma := 3,
    network_connection_threshold := 100, min_data_points := 10, history_size := 60 }

/-- `AnomalyDetector::check_cpu_anomaly`.  Source comparisons:
`std_dev < 1.0` (skip) and `|z| > cpu_threshold_sigma` with
`z = (cpu − mean)/std_dev`; here in squared form (see
`cpu_skip_guard_iff` and `zscore_test_iff`). -/
def check_cpu_anomaly (cfg : AnomalyConfig) (p : ProcessInfo) (stats : ProcessStatsS)
    (now : ℤ) : Option AnomalyS :=
  let ms := calculate_cpu_stats_sq stats
  if ms.2 < 1 then none
  else if cfg.cpu_threshold_sigma < 0 ∨
      (p.cpu_usage - ms.1) ^ 2 > cfg.cpu_threshold_sigma ^ 2 * ms.2 then
    some { anomaly_type := .CpuSpike, pid := p.pid, process_name := p.name,
           timestamp := now, current_value := p.cpu_usage, expected_value := ms.1 }
  else none

/-- `AnomalyDetector::check_memory_anomaly`; the skip guard is
`std_dev < 1024.0` on the KB-valued ring, i.e. 1 MiB of RSS. -/
def check_memory_anomaly (cfg : AnomalyConfig) (p : ProcessInfo) (stats : ProcessStatsS)
    (now : ℤ) : Option AnomalyS :=
  let ms := calculate_memory_stats_sq stats
  if ms.2 < 1024 ^ 2 then none
  else if cfg.memory_threshold_sigma < 0 ∨
      ((p.memory_usage : ℚ) - ms.1) ^ 2 > cfg.memory_threshold_sigma ^ 2 * ms.2 then
    some { anomaly_type := .MemorySpike, pid := p.pid, process_name := p.name,
           timestamp := now, current_value := (p.memory_usage : ℚ),
           expected_value := ms.1 }
  else none

/-- `AnomalyDetector::check_network_anomaly`. -/
def check_network_anomaly (cfg : AnomalyConfig) (p : ProcessInfo) (now : ℤ) :
    Option AnomalyS :=
  match p.network_connections with
  | some conns =>
    if conns > cfg.network_connection_threshold then
      some { anomaly_type := .ExcessiveNetworkConnections, pid := p.pid,
             process_name := p.name, timestamp := now,
             current_value := (conns : ℚ),
             expected_value := (cfg.network_connection_threshold : ℚ) / 2 }
    else none
  | none => none

/-! ### Association-list model of the detector's `HashMap`s -/

def alookup {β : Type} (l : List (ℕ × β)) (k : ℕ) : Option β :=
  (l.find? (fun e => e.1 == k)).map (·.2)

def ainsert {β : Type} (l : List (ℕ × β)) (k : ℕ) (v : β) : List (ℕ × β) :=
  if l.any (fun e => e.1 == k) then
    l.map (fun e => if e.1 == k then (k, v) else e)
  else l ++ [(k, v)]

/-- `AnomalyDetector::check_sudden_termination` (reads only). -/
def check_sudden_termination (history : List (ℕ × ProcessStatsS))
    (names : List (ℕ × List Char)) (pid : ℕ) (now : ℤ) : Option AnomalyS :=
  match alookup history pid with
  | some stats =>
    if stats.data_points.length < 5 then none
    else
      let cpu_mean := (calculate_cpu_stats_sq stats).1
      let mem_mean := (calculate_memory_stats_sq stats).1
      if cpu_mean > 50 ∨ mem_mean > 100000 then
        some { anomaly_type := .SuddenTermination, pid := pid,
               process_name := (alookup names pid).getD
                 ("PID ".toList ++ natRepr pid),
               timestamp := now, current_value := 0, expected_value := 1 }
      else none
  | none => none

/-- `anomaly::AnomalyDetector`'s state. -/
structure DetectorState where
  config : AnomalyConfig
  process_history : List (ℕ × ProcessStatsS)
  process_names : List (ℕ × List Char)
  last_seen_processes : List (ℕ × ℤ)
  detected_anomalies : List AnomalyS
  max_anomaly_history : ℕ

def newDetector (cfg : AnomalyConfig) : DetectorState :=
  { config := cfg, process_history := [], process_names := [],
    last_seen_processes := [], detected_anomalies := [], max_anomaly_history := 1000 }

/-- First loop of `AnomalyDetector::update`: record the name, append
the data point to the (possibly fresh) ring, refresh `last_seen`. -/
def ingestProcess (now : ℤ) (st : DetectorState) (p : ProcessInfo) : DetectorState :=
  let dp : ProcessDataPoint :=
    { cpu_usage := p.cpu_usage, memory_usage := p.memory_usage,
      network_connections := p.network_connections, gpu_memory := p.gpu_memory,
      timestamp := now }
  let stats := (alookup st.process_history p.pid).getD
    { data_points := [], max_history := st.config.history_size }
  { st with
    process_names := ainsert st.process_names p.pid p.name
    process_history := ainsert st.process_history p.pid (add_data_point stats dp)
    last_seen_processes := ainsert st.last_seen_processes p.pid now }

/-- Second loop of `update`: the three z-score/threshold checks, gated
by `min_data_points`. -/
def checkProcessAnomalies (st : DetectorState) (now : ℤ) (p : ProcessInfo) :
    List AnomalyS :=
  match alookup st.process_history p.pid with
  | some stats =>
    if stats.data_points.length ≥ st.config.min_data_points then
      (check_cpu_anomaly st.config p stats now).toList ++
        (check_memory_anomaly st.config p stats now).toList ++
        (check_network_anomaly st.config p now).toList
    else []
  | none => []

/-- `AnomalyDetector::update`: ingest all processes, run the checks,
report terminations (dropping only the `last_seen` entry — the ring is
kept "for potential respawn detection"), and append the new anomalies
to the bounded global ring. -/
def updateDetector (st0 : DetectorState) (now : ℤ) (processes : List ProcessInfo) :
    DetectorState × List AnomalyS :=
  let st1 := processes.foldl (ingestProcess now) st0
  let anomalies1 := processes.flatMap (checkProcessAnomalies st1 now)
  let active := processes.map ProcessInfo.pid
  let termPids := (st1.last_seen_processes.map (·.1)).filter
    (fun pid => !active.contains pid)
  let termAnomalies := termPids.filterMap
    (fun pid => check_sudden_termination st1.process_history st1.process_names pid now)
  let newAnoms := anomalies1 ++ termAnomalies
  let detected := newAnoms.foldl
    (fun ring a =>
      let r := ring ++ [a]
      if r.length > st1.max_anomaly_history then r.tail else r)
    st1.detected_anomalies
  ({ st1 with
      last_seen_processes := st1.last_seen_processes.filter
        (fun e => active.contains e.1)
      detected_anomalies := detected },
    newAnoms)

/-! ### `HashMap` insert/lookup lemmas -/

theorem alookup_map_replace_self {β : Type} (k : ℕ) (v : β) :
    ∀ l : List (ℕ × β), l.any (fun e => e.1 == k) = true →
      alookup (l.map (fun e => if e.1 == k then (k, v) else e)) k = some v := by
  intro l
  induction l with
  | nil => intro h; exact absurd h (by simp)
  | cons e l ih =>
    intro h
    simp only [List.map_cons]
    by_cases he : (e.1 == k) = true
    · rw [if_pos he]
      simp [alookup, List.find?_cons]
    · rw [if_neg he]
      have he' : (e.1 == k) = false := by
        rcases hb : (e.1 == k) with _ | _
        · rfl
        · exact absurd hb he
      have hl : l.any (fun e => e.1 == k) = true := by
        rcases List.any_eq_true.mp h with ⟨x, hx, hxk⟩
        rcases List.mem_cons.mp hx with h1 | h2
        · rw [h1] at hxk; exact absurd hxk he
        · exact List.any_eq_true.mpr ⟨x, h2, hxk⟩
      simp only [alookup, List.find?_cons, he']
      exact ih hl

theorem alookup_map_replace_ne {β : Type} (k : ℕ) (v : β) (k' : ℕ) (h : k' ≠ k) :
    ∀ l : List (ℕ × β),
      alookup (l.map (fun e => if e.1 == k then (k, v) else e)) k' = alookup l k' := by
  intro l
  induction l with
  | nil => rfl
  | cons e l ih =>
    simp only [List.map_cons]
    by_cases he : (e.1 == k) = true
    · rw [if_pos he]
      have hek : e.1 = k := by simpa using he
      have hkk' : (k == k') = false := by
        simp only [beq_eq_false_iff_ne]; exact fun hk => h hk.symm
      have hek' : (e.1 == k') = false := by
        rw [hek]; exact hkk'
      simp only [alookup, List.find?_cons, hkk', hek']
      exact ih
    · rw [if_neg he]
      simp only [alookup, List.find?_cons]
      rcases hb : (e.1 == k') with _ | _
      · exact ih
      · rfl

theorem alookup_ainsert_self {β : Type} (l : List (ℕ × β)) (k : ℕ) (v : β) :
    alookup (ainsert l k v) k = some v := by
  unfold ainsert
  by_cases hc : l.any (fun e => e.1 == k) = true
  · rw [if_pos hc]
    exact alookup_map_replace_self k v l hc
  · rw [if_neg hc]
    have hnone : l.find? (fun e => e.1 == k) = none := by
      rw [List.find?_eq_none]
      intro x hx hxk
      exact hc (List.any_eq_true.mpr ⟨x, hx, hxk⟩)
    unfold alookup
    rw [List.find?_append, hnone]
    simp

theorem alookup_ainsert_ne {β : Type} (l : List (ℕ × β)) (k : ℕ) (v : β) (k' : ℕ)
    (h : k' ≠ k) : alookup (ainsert l k v) k' = alookup l k' := by
  unfold ainsert
  by_cases hc : l.any (fun e => e.1 == k) = true
  · rw [if_pos hc]
    exact alookup_map_replace_ne k v k' h l
  · rw [if_neg hc]
    unfold alookup
    rw [List.find?_append]
    have h2 : ([(k, v)].find? (fun e => e.1 == k')) = none := by
      simp only [List.find?_cons, List.find?_nil]
      have : (k == k') = false := by
        simp only [beq_eq_false_iff_ne]; exact fun hk => h hk.symm
      rw [this]
    rw [h2]
    simp

theorem ingest_keeps_ring (now : ℤ) (st : DetectorState) (p : ProcessInfo) (pid : ℕ)
    (h : (alookup st.process_history pid).isSome = true) :
    (alookup (ingestProcess now st p).process_history pid).isSome = true := by
  unfold ingestProcess
  by_cases hp : pid = p.pid
  · subst hp
    simp only []
    rw [alookup_ainsert_self]
    rfl
  · simp only []
    rw [alookup_ainsert_ne _ _ _ _ hp]
    exact h

theorem ingest_other_ring (now : ℤ) (st : DetectorState) (p : ProcessInfo) (pid : ℕ)
    (h : pid ≠ p.pid) :
    alookup (ingestProcess now st p).process_history pid =
      alookup st.process_history pid := by
  unfold ingestProcess
  simp only []
  exact alookup_ainsert_ne _ _ _ _ h

theorem foldl_ingest_keeps_ring (now : ℤ) (ps : List ProcessInfo) :
    ∀ (st : DetectorState) (pid : ℕ),
      (alookup st.process_history pid).isSome = true →
      (alookup (ps.foldl (ingestProcess now) st).process_history pid).isSome = true := by
  induction ps with
  | nil => intro st pid h; exact h
  | cons p ps ih =>
    intro st pid h
    exact ih (ingestProcess now st p) pid (ingest_keeps_ring now st p pid h)

theorem foldl_ingest_other_ring (now : ℤ) (ps : List ProcessInfo) :
    ∀ (st : DetectorState) (pid : ℕ), pid ∉ ps.map ProcessInfo.pid →
      alookup (ps.foldl (ingestProcess now) st).process_history pid =
        alookup st.process_history pid := by
  induction ps with
  | nil => intro st pid _; rfl
  | cons p ps ih =>
    intro st pid h
    have h1 : pid ≠ p.pid := fun he => h (he ▸ List.mem_map_of_mem _ (List.mem_cons_self p ps))
    have h2 : pid ∉ ps.map ProcessInfo.pid := fun hm => h (List.mem_map.mp hm |>.elim
      (fun q hq => List.mem_map.mpr ⟨q, List.mem_cons_of_mem p hq.1, hq.2⟩))
    rw [List.foldl_cons, ih (ingestProcess now st p) pid h2,
      ingest_other_ring now st p pid h1]

/-- The final state of `update` carries the ingested history map
unchanged: the termination pass touches only `last_seen_processes`. -/
theorem updateDetector_history (st : DetectorState) (now : ℤ)
    (ps : List ProcessInfo) :
    (updateDetector st now ps).1.process_history =
      (ps.foldl (ingestProcess now) st).process_history := rfl

/-! ## C4 — detector state eviction -/

/-- A concrete process for the C4 run. -/
def procFive : ProcessInfo :=
  { pid := 5, ppid := 1, name := "worker".toList, command := [], user := [],
    cpu_usage := 60, memory_usage := 200000, memory_percent := 1, status := [],
    start_time := 0, running_time := 0, uid := 0, gid := 0, threads := 1,
    priority := 20, nice := 0, network_connections := none, is_container := false,
    container_id := none, cgroup_memory_limit := none, gpu_memory := none }

/-- C4 counterexample: pid 5 is seen at t=0, absent at t=2 (the tick its
termination is reported — its `last_seen` entry is removed there), and
still absent at t=4, one full tick beyond.  Its observation ring is
still in the detector's state: `update` keeps rings "for potential
respawn detection" and never drops them. -/
theorem C4_counterexample :
    (alookup (updateDetector (updateDetector (updateDetector
          (newDetector defaultAnomalyConfig) 0 [procFive]).1 2 []).1 4 []).1.process_history
        5).isSome = true ∧
      alookup (updateDetector (updateDetector
          (newDetector defaultAnomalyConfig) 0 [procFive]).1 2 []).1.last_seen_processes
        5 = none := by
  refine ⟨by decide, by decide⟩

/-- C4 amended: `update` never removes a per-PID observation ring — a
tracked PID's ring survives every later tick (and is unchanged on ticks
where the PID is absent); only the PID's `last_seen` entry is dropped
when its termination is reported. -/
theorem C4_rings_retained (st : DetectorState) (now : ℤ) (ps : List ProcessInfo)
    (pid : ℕ) (h : (alookup st.process_history pid).isSome = true) :
    (alookup (updateDetector st now ps).1.process_history pid).isSome = true ∧
      (pid ∉ ps.map ProcessInfo.pid →
        alookup (updateDetector st now ps).1.process_history pid =
          alookup st.process_history pid) := by
  rw [updateDetector_history]
  exact ⟨foldl_ingest_keeps_ring now ps st pid h,
    fun habs => foldl_ingest_other_ring now ps st pid habs⟩

/-- Witness for C4's amended theorem: after the three-tick run of the
counterexample, pid 5's ring is tracked and survives one more empty
tick unchanged. -/
theorem C4_rings_retained_witness :
    (alookup (updateDetector (updateDetector (updateDetector
          (newDetector defaultAnomalyConfig) 0 [procFive]).1 2 []).1 4 []).1.process_history
        5).isSome = true := by
  have h0 : (alookup (updateDetector (updateDetector
      (newDetector defaultAnomalyConfig) 0 [procFive]).1 2 []).1.process_history
        5).isSome = true := by decide
  exact (C4_rings_retained _ 4 [] 5 h0).1

/-! ### Variance / standard-deviation bridging -/

theorem listVariance_nonneg (l : List ℚ) : 0 ≤ listVariance l := by
  unfold listVariance
  apply div_nonneg
  · apply List.sum_nonneg
    intro x hx
    obtain ⟨v, _, hv⟩ := List.mem_map.mp hx
    rw [← hv]
    positivity
  · positivity

theorem cpu_variance_nonneg (st : ProcessStatsS) : 0 ≤ (calculate_cpu_stats_sq st).2 := by
  unfold calculate_cpu_stats_sq
  split
  · norm_num
  · exact listVariance_nonneg _

theorem memory_variance_nonneg (st : ProcessStatsS) :
    0 ≤ (calculate_memory_stats_sq st).2 := by
  unfold calculate_memory_stats_sq
  split
  · norm_num
  · exact listVariance_nonneg _

/-- The source's skip guard `std_dev < c` (with `std_dev = √variance`)
is the model's `variance < c²`, for any positive cutoff. -/
theorem sqrt_guard_iff (v : ℚ) (c : ℝ) (hc : 0 < c) :
    Real.sqrt (v : ℝ) < c ↔ (v : ℝ) < c ^ 2 :=
  Real.sqrt_lt' hc

/-- The source's spike test `|current − mean| / std_dev > T` is the
model's `T < 0 ∨ (current − mean)² > T² · variance`, whenever the guard
`variance ≥ 1` has passed (so `std_dev > 0`). -/
theorem zscore_test_iff (x μ T v : ℚ) (hv : 1 ≤ v) :
    (|(x : ℝ) - (μ : ℝ)| / Real.sqrt (v : ℝ) > (T : ℝ)) ↔
      (T < 0 ∨ (x - μ) ^ 2 > T ^ 2 * v) := by
  have hv0 : (0 : ℝ) < (v : ℝ) := by
    have : (1 : ℝ) ≤ (v : ℝ) := by exact_mod_cast hv
    linarith
  have hs : 0 < Real.sqrt (v : ℝ) := Real.sqrt_pos.mpr hv0
  rw [gt_iff_lt, lt_div_iff hs]
  by_cases hT : T < 0
  · constructor
    · intro _; exact Or.inl hT
    · intro _
      have hT' : (T : ℝ) < 0 := by exact_mod_cast hT
      have habs : 0 ≤ |(x : ℝ) - (μ : ℝ)| := abs_nonneg _
      nlinarith [Real.sqrt_nonneg (v : ℝ)]
  · push_neg at hT
    have hT' : (0 : ℝ) ≤ (T : ℝ) := by exact_mod_cast hT
    constructor
    · intro hlt
      refine Or.inr ?_
      have hsq : ((T : ℝ) * Real.sqrt (v : ℝ)) ^ 2 < |(x : ℝ) - (μ : ℝ)| ^ 2 := by
        have h0 : 0 ≤ (T : ℝ) * Real.sqrt (v : ℝ) := by positivity
        nlinarith [abs_nonneg ((x : ℝ) - (μ : ℝ))]
      rw [mul_pow, Real.sq_sqrt (le_of_lt hv0), sq_abs] at hsq
      exact_mod_cast hsq
    · intro hor
      rcases hor with hneg | hgt
      · exact absurd hneg (by exact not_lt.mpr hT)
      · have hgt' : ((T : ℝ)) ^ 2 * (v : ℝ) < ((x : ℝ) - (μ : ℝ)) ^ 2 := by
          have : ((T ^ 2 * v : ℚ) : ℝ) < (((x - μ) ^ 2 : ℚ) : ℝ) := by exact_mod_cast hgt
          push_cast at this
          linarith
        have hsq : ((T : ℝ) * Real.sqrt (v : ℝ)) ^ 2 < |(x : ℝ) - (μ : ℝ)| ^ 2 := by
          rw [mul_pow, Real.sq_sqrt (le_of_lt hv0), sq_abs]
          exact hgt'
        have h0 : 0 ≤ (T : ℝ) * Real.sqrt (v : ℝ) := by positivity
        have h1 : 0 ≤ |(x : ℝ) - (μ : ℝ)| := abs_nonneg _
        nlinarith

theorem listVariance_of_const {l : List ℚ} {a : ℚ}
    (h : ∀ x ∈ l, x = a) : listVariance l = 0 := by
  rcases l with _ | ⟨b, rest⟩
  · simp [listVariance, listMean]
  · have hrepl : b :: rest = List.replicate (b :: rest).length a :=
      List.eq_replicate_of_mem h
    rw [listVariance, hrepl]
    have hn : (List.replicate (b :: rest).length a).length ≠ 0 := by
      simp
    have hsum : (List.replicate (b :: rest).length a).sum =
        ((b :: rest).length : ℚ) * a := by
      rw [List.sum_replicate, nsmul_eq_mul]
    have hmean : listMean (List.replicate (b :: rest).length a) = a := by
      rw [listMean, hsum, List.length_replicate]
      have hQ : ((b :: rest).length : ℚ) ≠ 0 := by
        rw [List.length_cons]
        exact_mod_cast Nat.succ_ne_zero rest.length
      field_simp
    rw [hmean]
    have hmap : (List.replicate (b :: rest).length a).map (fun v => (v - a) ^ 2) =
        List.replicate (b :: rest).length 0 := by
      rw [List.map_replicate]
      simp
    rw [hmap, List.sum_replicate]
    simp

theorem listVariance_of_pairwise {l : List ℚ}
    (h : ∀ x ∈ l, ∀ y ∈ l, x = y) : listVariance l = 0 := by
  rcases l with _ | ⟨b, rest⟩
  · simp [listVariance, listMean]
  · exact listVariance_of_const
      (fun x hx => h x hx b (List.mem_cons_self _ _))

/-! ## C3 — z-score guards -/

/-- C3 amended: the CPU z-score test is skipped whenever the population
standard deviation `√variance` of the ring's CPU values is below 1.0 —
so a ring whose CPU samples are all equal never yields a CpuSpike — and
the memory z-score test is skipped whenever the standard deviation of
the ring's RSS values (stored in KB) is below 1024, i.e. below 1 MiB. -/
theorem C3_sigma_guards (cfg : AnomalyConfig) (p : ProcessInfo)
    (stats : ProcessStatsS) (now : ℤ) :
    (Real.sqrt (((calculate_cpu_stats_sq stats).2 : ℚ) : ℝ) < 1 →
      check_cpu_anomaly cfg p stats now = none) ∧
    ((∀ d ∈ stats.data_points, ∀ d' ∈ stats.data_points,
        d.cpu_usage = d'.cpu_usage) →
      check_cpu_anomaly cfg p stats now = none) ∧
    (Real.sqrt (((calculate_memory_stats_sq stats).2 : ℚ) : ℝ) < 1024 →
      check_memory_anomaly cfg p stats now = none) := by
  refine ⟨?_, ?_, ?_⟩
  · intro h
    have hq : ((calculate_cpu_stats_sq stats).2 : ℝ) < 1 ^ 2 :=
      (sqrt_guard_iff _ 1 one_pos).mp h
    have hq' : (calculate_cpu_stats_sq stats).2 < 1 := by
      rw [one_pow] at hq
      exact_mod_cast hq
    unfold check_cpu_anomaly
    rw [if_pos hq']
  · intro h
    have hpair : ∀ x ∈ stats.data_points.map (·.cpu_usage),
        ∀ y ∈ stats.data_points.map (·.cpu_usage), x = y := by
      intro x hx y hy
      obtain ⟨d, hdm, hde⟩ := List.mem_map.mp hx
      obtain ⟨d', hdm', hde'⟩ := List.mem_map.mp hy
      rw [← hde, ← hde']
      exact h d hdm d' hdm'
    have hvar : (calculate_cpu_stats_sq stats).2 < 1 := by
      unfold calculate_cpu_stats_sq
      split
      · norm_num
      · show listVariance (stats.data_points.map (·.cpu_usage)) < 1
        rw [listVariance_of_pairwise hpair]
        norm_num
    unfold check_cpu_anomaly
    rw [if_pos hvar]
  · intro h
    have hq : ((calculate_memory_stats_sq stats).2 : ℝ) < 1024 ^ 2 :=
      (sqrt_guard_iff _ 1024 (by norm_num)).mp h
    have hq' : (calculate_memory_stats_sq stats).2 < 1024 ^ 2 := by
      exact_mod_cast hq
    unfold check_memory_anomaly
    rw [if_pos hq']

/-- A three-point ring with identical samples. -/
def statsConst : ProcessStatsS :=
  { data_points := List.replicate 3
      { cpu_usage := 25, memory_usage := 4096, network_connections := none,
        gpu_memory := none, timestamp := 0 },
    max_history := 60 }

/-- Witness for C3 on the constant ring: both tests are skipped. -/
theorem C3_sigma_guards_witness :
    check_cpu_anomaly defaultAnomalyConfig procFive statsConst 0 = none ∧
      check_memory_anomaly defaultAnomalyConfig procFive statsConst 0 = none := by
  have h := C3_sigma_guards defaultAnomalyConfig procFive statsConst 0
  have hc : ((calculate_cpu_stats_sq statsConst).2 : ℚ) = 0 := by
    unfold calculate_cpu_stats_sq
    rw [if_neg (by simp [statsConst])]
    exact listVariance_of_pairwise (by
      intro x hx y hy
      simp [statsConst, List.mem_map] at hx hy
      rw [hx, hy])
  have hm : ((calculate_memory_stats_sq statsConst).2 : ℚ) = 0 := by
    unfold calculate_memory_stats_sq
    rw [if_neg (by simp [statsConst])]
    exact listVariance_of_pairwise (by
      intro x hx y hy
      simp [statsConst, List.mem_map] at hx hy
      rw [hx, hy])
  refine ⟨h.1 ?_, h.2.2 ?_⟩
  · rw [hc]
    simp [Real.sqrt_zero]
  · rw [hm]
    simp [Real.sqrt_zero]

/-- The ring's RSS values in bytes: `memory_usage` is stored in KB. -/
def memValuesBytes (st : ProcessStatsS) : List ℚ :=
  st.data_points.map (fun d => 1024 * (d.memory_usage : ℚ))

def dpZero : ProcessDataPoint :=
  { cpu_usage := 0, memory_usage := 0, network_connections := none,
    gpu_memory := none, timestamp := 0 }

def dpSpike : ProcessDataPoint :=
  { cpu_usage := 0, memory_usage := 990, network_connections := none,
    gpu_memory := none, timestamp := 0 }

/-- The 11-point ring: ten samples at 0 KB, one at 990 KB. -/
def cexStats : ProcessStatsS :=
  { data_points := List.replicate 10 dpZero ++ [dpSpike], max_history := 60 }

def cexProc : ProcessInfo :=
  { procFive with memory_usage := 990 }

/-- C3 counterexample: on this ring the RSS standard deviation in bytes
is far above 1024 (it is `1024·√81000` bytes) and the z-score exceeds
the 3σ threshold, so under the claim's "skipped only below 1024 bytes"
guard a MemorySpike would fire — but the code compares the KB-valued
deviation (√81000 ≈ 284.6 KB) against 1024 and skips the test. -/
theorem C3_counterexample :
    1024 ≤ Real.sqrt ((listVariance (memValuesBytes cexStats) : ℚ) : ℝ) ∧
      ((990 : ℚ) - (calculate_memory_stats_sq cexStats).1) ^ 2 >
        defaultAnomalyConfig.memory_threshold_sigma ^ 2 *
          (calculate_memory_stats_sq cexStats).2 ∧
      check_memory_anomaly defaultAnomalyConfig cexProc cexStats 0 = none := by
  have hvalsK : cexStats.data_points.map (fun d => (d.memory_usage : ℚ)) =
      List.replicate 10 (0 : ℚ) ++ [990] := by
    simp [cexStats, dpZero, dpSpike]
  have hvalsB : memValuesBytes cexStats = List.replicate 10 (0 : ℚ) ++ [1013760] := by
    unfold memValuesBytes
    simp [cexStats, dpZero, dpSpike]
    norm_num
  have hmeanK : listMean (cexStats.data_points.map (fun d => (d.memory_usage : ℚ))) = 90 := by
    rw [hvalsK]
    unfold listMean
    rw [List.sum_append, List.sum_replicate]
    norm_num
  have hvarK : listVariance (cexStats.data_points.map (fun d => (d.memory_usage : ℚ))) =
      81000 := by
    unfold listVariance
    rw [hmeanK, hvalsK]
    rw [List.map_append, List.map_replicate, List.sum_append, List.sum_replicate]
    norm_num
  have hmeanB : listMean (memValuesBytes cexStats) = 92160 := by
    rw [hvalsB]
    unfold listMean
    rw [List.sum_append, List.sum_replicate]
    norm_num
  have hvarB : listVariance (memValuesBytes cexStats) = 1024 ^ 2 * 81000 := by
    unfold listVariance
    rw [hmeanB, hvalsB]
    rw [List.map_append, List.map_replicate, List.sum_append, List.sum_replicate]
    norm_num
  have hms1 : (calculate_memory_stats_sq cexStats).1 = 90 := by
    unfold calculate_memory_stats_sq
    rw [if_neg (by simp [cexStats])]
    exact hmeanK
  have hms2 : (calculate_memory_stats_sq cexStats).2 = 81000 := by
    unfold calculate_memory_stats_sq
    rw [if_neg (by simp [cexStats])]
    exact hvarK
  refine ⟨?_, ?_, ?_⟩
  · rw [hvarB]
    have hcast : (((1024 ^ 2 * 81000 : ℚ)) : ℝ) = 1024 ^ 2 * 81000 := by
      push_cast
      ring
    rw [hcast]
    rw [show (1024 : ℝ) = Real.sqrt (1024 ^ 2) from
      (Real.sqrt_sq (by norm_num)).symm]
    exact Real.sqrt_le_sqrt (by norm_num)
  · rw [hms1, hms2]
    norm_num [defaultAnomalyConfig]
  · unfold check_memory_anomaly
    simp only []
    rw [if_pos (by rw [hms2]; norm_num)]

/-! ## C10 — the current sample is part of the ring it is tested against -/

/-- The data point `update` builds from the current observation. -/
def mkDataPoint (now : ℤ) (p : ProcessInfo) : ProcessDataPoint :=
  { cpu_usage := p.cpu_usage, memory_usage := p.memory_usage,
    network_connections := p.network_connections, gpu_memory := p.gpu_memory,
    timestamp := now }

theorem listMean_replicate_append (k : ℕ) (a b : ℚ) :
    listMean (List.replicate k a ++ [b]) = ((k : ℚ) * a + b) / ((k : ℚ) + 1) := by
  unfold listMean
  rw [List.sum_append, List.sum_replicate, List.length_append, List.length_replicate,
    nsmul_eq_mul]
  simp only [List.sum_cons, List.sum_nil, add_zero, List.length_cons, List.length_nil]
  push_cast
  ring_nf

theorem listVariance_replicate_append (k : ℕ) (a b : ℚ) :
    listVariance (List.replicate k a ++ [b]) =
      (k : ℚ) * (b - a) ^ 2 / ((k : ℚ) + 1) ^ 2 := by
  unfold listVariance
  rw [listMean_replicate_append,
    List.map_append, List.map_replicate, List.sum_append, List.sum_replicate,
    List.length_append, List.length_replicate, nsmul_eq_mul]
  simp only [List.map_cons, List.map_nil, List.sum_cons, List.sum_nil, add_zero,
    List.length_cons, List.length_nil]
  have hk1 : ((k : ℚ) + 1) ≠ 0 := by positivity
  push_cast
  field_simp
  ring

/-- The z-score of the deviating sample against a ring of `k` identical
samples plus itself: exactly `√k` in magnitude, independent of the
deviation's size. -/
theorem zscore_of_single_deviation (k : ℕ) (a b : ℚ) (hk : 1 ≤ k) (hne : b ≠ a) :
    |(b : ℝ) - ((((k : ℚ) * a + b) / ((k : ℚ) + 1) : ℚ) : ℝ)| /
        Real.sqrt ((((k : ℚ) * (b - a) ^ 2 / ((k : ℚ) + 1) ^ 2 : ℚ)) : ℝ) =
      Real.sqrt (k : ℝ) := by
  have hK0 : (0 : ℝ) < (k : ℝ) := by
    have : (1 : ℕ) ≤ k := hk
    exact_mod_cast Nat.lt_of_lt_of_le Nat.zero_lt_one this
  have hK1 : (0 : ℝ) < (k : ℝ) + 1 := by linarith
  have hD0 : (0 : ℝ) < |(b : ℝ) - (a : ℝ)| := by
    rw [abs_pos, sub_ne_zero]
    exact_mod_cast hne
  have hnum : (b : ℝ) - ((((k : ℚ) * a + b) / ((k : ℚ) + 1) : ℚ) : ℝ) =
      (k : ℝ) * ((b : ℝ) - (a : ℝ)) / ((k : ℝ) + 1) := by
    push_cast
    field_simp
    ring
  have habs : |(b : ℝ) - ((((k : ℚ) * a + b) / ((k : ℚ) + 1) : ℚ) : ℝ)| =
      (k : ℝ) * |(b : ℝ) - (a : ℝ)| / ((k : ℝ) + 1) := by
    rw [hnum, abs_div, abs_mul, abs_of_pos hK0, abs_of_pos hK1]
  have hvar : ((((k : ℚ) * (b - a) ^ 2 / ((k : ℚ) + 1) ^ 2 : ℚ)) : ℝ) =
      (Real.sqrt (k : ℝ) * |(b : ℝ) - (a : ℝ)| / ((k : ℝ) + 1)) ^ 2 := by
    rw [div_pow, mul_pow, Real.sq_sqrt (le_of_lt hK0), sq_abs]
    push_cast
    ring
  have hsq : Real.sqrt ((((k : ℚ) * (b - a) ^ 2 / ((k : ℚ) + 1) ^ 2 : ℚ)) : ℝ) =
      Real.sqrt (k : ℝ) * |(b : ℝ) - (a : ℝ)| / ((k : ℝ) + 1) := by
    rw [hvar, Real.sqrt_sq (by positivity)]
  rw [habs, hsq]
  have hs0 : (0 : ℝ) < Real.sqrt (k : ℝ) := Real.sqrt_pos.mpr hK0
  have hD : ((k : ℝ) * |(b : ℝ) - (a : ℝ)| / ((k : ℝ) + 1)) /
      (Real.sqrt (k : ℝ) * |(b : ℝ) - (a : ℝ)| / ((k : ℝ) + 1)) =
      (k : ℝ) / Real.sqrt (k : ℝ) := by
    field_simp
    rw [← mul_assoc, Real.mul_self_sqrt (le_of_lt hK0)]
  rw [hD, Real.div_sqrt]

/-- C10: `update` appends the current observation to the per-PID ring
before the z-score tests run, so the ring the tests see — also the ring
left in the posterior state — contains the current sample; and against
a prior ring of `k` identical samples, the deviating current sample's
z-score has magnitude exactly `√k = √(n−1)` (`n = k+1` ring points),
whatever the deviation's size. -/
theorem C10_current_sample_zscore (st : DetectorState) (now : ℤ) (p : ProcessInfo)
    (k : ℕ) (dpa : ProcessDataPoint) (hk : 1 ≤ k)
    (hring : alookup st.process_history p.pid =
      some { data_points := List.replicate k dpa, max_history := st.config.history_size })
    (hcap : k + 1 ≤ st.config.history_size)
    (hne : p.cpu_usage ≠ dpa.cpu_usage) :
    alookup (updateDetector st now [p]).1.process_history p.pid =
      some { data_points := List.replicate k dpa ++ [mkDataPoint now p],
             max_history := st.config.history_size } ∧
    |(p.cpu_usage : ℝ) - ((calculate_cpu_stats_sq
          { data_points := List.replicate k dpa ++ [mkDataPoint now p],
            max_history := st.config.history_size }).1 : ℝ)| /
        Real.sqrt (((calculate_cpu_stats_sq
          { data_points := List.replicate k dpa ++ [mkDataPoint now p],
            max_history := st.config.history_size }).2 : ℚ) : ℝ) =
      Real.sqrt (k : ℝ) := by
  constructor
  · rw [updateDetector_history]
    show alookup (ingestProcess now st p).process_history p.pid = _
    unfold ingestProcess
    simp only []
    rw [alookup_ainsert_self]
    congr 1
    rw [hring]
    show add_data_point
      { data_points := List.replicate k dpa, max_history := st.config.history_size }
      (mkDataPoint now p) = _
    unfold add_data_point
    simp only []
    rw [if_neg (by
      simp only [List.length_append, List.length_replicate, List.length_cons,
        List.length_nil]
      omega)]
  · have hvals : (List.replicate k dpa ++ [mkDataPoint now p]).map (·.cpu_usage) =
        List.replicate k dpa.cpu_usage ++ [p.cpu_usage] := by
      rw [List.map_append, List.map_replicate]
      rfl
    have hne' : (List.replicate k dpa ++ [mkDataPoint now p] : List ProcessDataPoint) ≠ [] := by
      simp
    have h1 : (calculate_cpu_stats_sq
        { data_points := List.replicate k dpa ++ [mkDataPoint now p],
          max_history := st.config.history_size }).1 =
        ((k : ℚ) * dpa.cpu_usage + p.cpu_usage) / ((k : ℚ) + 1) := by
      unfold calculate_cpu_stats_sq
      rw [if_neg hne']
      show listMean ((List.replicate k dpa ++ [mkDataPoint now p]).map (·.cpu_usage)) = _
      rw [hvals, listMean_replicate_append]
    have h2 : (calculate_cpu_stats_sq
        { data_points := List.replicate k dpa ++ [mkDataPoint now p],
          max_history := st.config.history_size }).2 =
        (k : ℚ) * (p.cpu_usage - dpa.cpu_usage) ^ 2 / ((k : ℚ) + 1) ^ 2 := by
      unfold calculate_cpu_stats_sq
      rw [if_neg hne']
      show listVariance ((List.replicate k dpa ++ [mkDataPoint now p]).map (·.cpu_usage)) = _
      rw [hvals, listVariance_replicate_append]
    rw [h1, h2]
    exact zscore_of_single_deviation k dpa.cpu_usage p.cpu_usage hk hne

def wDp : ProcessDataPoint :=
  { cpu_usage := 10, memory_usage := 0, network_connections := none,
    gpu_memory := none, timestamp := 0 }

def wProc : ProcessInfo :=
  { procFive with cpu_usage := 80 }

def wSt : DetectorState :=
  { config := defaultAnomalyConfig,
    process_history := [(5, { data_points := List.replicate 2 wDp, max_history := 60 })],
    process_names := [], last_seen_processes := [], detected_anomalies := [],
    max_anomaly_history := 1000 }

/-- Witness for C10: two prior samples at CPU 10, current sample at 80;
the ring after `update` holds all three and the z-score is `√2`. -/
theorem C10_current_sample_zscore_witness :
    alookup (updateDetector wSt 0 [wProc]).1.process_history wProc.pid =
      some { data_points := List.replicate 2 wDp ++ [mkDataPoint 0 wProc],
             max_history := wSt.config.history_size } ∧
    |(wProc.cpu_usage : ℝ) - ((calculate_cpu_stats_sq
          { data_points := List.replicate 2 wDp ++ [mkDataPoint 0 wProc],
            max_history := wSt.config.history_size }).1 : ℝ)| /
        Real.sqrt (((calculate_cpu_stats_sq
          { data_points := List.replicate 2 wDp ++ [mkDataPoint 0 wProc],
            max_history := wSt.config.history_size }).2 : ℚ) : ℝ) =
      Real.sqrt ((2 : ℕ) : ℝ) :=
  C10_current_sample_zscore wSt 0 wProc 2 wDp (by decide) rfl (by decide)
    (by norm_num [wProc, wDp, procFive])

/-! ## alerts.rs — the alert engine -/

inductive AlertType where
  | HighCpu
  | HighMemory
  | ProcessTerminated
  | ProcessStarted
  | AnomalyDetected
  | Custom (s : List Char)
deriving DecidableEq

inductive AlertSeverity where
  | Info
  | Warning
  | Critical
deriving DecidableEq

/-- `alerts::Alert` (the `message` string is omitted — pure formatting). -/
structure Alert where
  alert_type : AlertType
  severity : AlertSeverity
  process_name : List Char
  pid : ℕ
  timestamp : ℤ
  value : Option ℚ
  threshold : Option ℚ
deriving DecidableEq

/-- `alerts::AlertRule`. -/
structure AlertRule where
  enabled : Bool
  alert_type : AlertType
  threshold : ℚ
  duration_secs : ℕ
  cooldown_secs : ℕ
  process_filter : Option (List Char)
deriving DecidableEq

/-- `alerts::AlertState` (per `(alert_type, pid)` key). -/
structure AlertState where
  triggered : Bool
  first_seen : ℤ
  last_sent : ℤ
  count : ℕ
deriving DecidableEq

/-- Generic-key association-list `HashMap` (lookup / insert-or-replace). -/
def klookup {κ β : Type} [BEq κ] (l : List (κ × β)) (k : κ) : Option β :=
  (l.find? (fun e => e.1 == k)).map (·.2)

def kinsert {κ β : Type} [BEq κ] (l : List (κ × β)) (k : κ) (v : β) : List (κ × β) :=
  if l.any (fun e => e.1 == k) then
    l.map (fun e => if e.1 == k then (k, v) else e)
  else l ++ [(k, v)]

/-- `AlertManager::handle_trigger`.  Time is integer seconds;
`Instant::duration_since` saturates at zero, modelled by `Int.toNat`.
A fresh entry gets `first_seen = now` and
`last_sent = now − (cooldown + 1)` so its cooldown check passes. -/
def handle_trigger (rule : AlertRule) (pid : ℕ) (name : List Char) (value : ℚ)
    (now : ℤ) (astate : List ((AlertType × ℕ) × AlertState)) :
    List ((AlertType × ℕ) × AlertState) × Option Alert :=
  let key := (rule.alert_type, pid)
  let st := (klookup astate key).getD
    { triggered := false, first_seen := now,
      last_sent := now - ((rule.cooldown_secs : ℤ) + 1), count := 0 }
  let astate1 := kinsert astate key st
  if (now - st.first_seen).toNat < rule.duration_secs then (astate1, none)
  else if (now - st.last_sent).toNat < rule.cooldown_secs then (astate1, none)
  else
    let severity := if value > rule.threshold * (3 / 2) then AlertSeverity.Critical
      else AlertSeverity.Warning
    let alert : Alert :=
      { alert_type := rule.alert_type, severity := severity, process_name := name,
        pid := pid, timestamp := now, value := some value,
        threshold := some rule.threshold }
    (kinsert astate1 key
      { st with last_sent := now, count := st.count + 1, triggered := true },
      some alert)

/-- `AlertManager::handle_clear`: reset `triggered` and restart the
sustain window. -/
def handle_clear (rule : AlertRule) (pid : ℕ) (now : ℤ)
    (astate : List ((AlertType × ℕ) × AlertState)) :
    List ((AlertType × ℕ) × AlertState) :=
  let key := (rule.alert_type, pid)
  match klookup astate key with
  | some st => kinsert astate key { st with triggered := false, first_seen := now }
  | none => astate

/-- One rule step of `AlertManager::check_process`. -/
def checkRuleStep (pid : ℕ) (name : List Char) (cpu mem : ℚ) (now : ℤ)
    (acc : List ((AlertType × ℕ) × AlertState) × List Alert) (rule : AlertRule) :
    List ((AlertType × ℕ) × AlertState) × List Alert :=
  if rule.enabled = false then acc
  else if (match rule.process_filter with
    | some f => !containsStr name f
    | none => false) then acc
  else
    match rule.alert_type with
    | .HighCpu =>
      if cpu > rule.threshold then
        let (s, e) := handle_trigger rule pid name cpu now acc.1
        (s, acc.2 ++ e.toList)
      else (handle_clear rule pid now acc.1, acc.2)
    | .HighMemory =>
      if mem > rule.threshold then
        let (s, e) := handle_trigger rule pid name mem now acc.1
        (s, acc.2 ++ e.toList)
      else (handle_clear rule pid now acc.1, acc.2)
    | _ => acc

/-- `AlertManager::check_process` over the rule list. -/
def check_process (rules : List AlertRule) (pid : ℕ) (name : List Char)
    (cpu mem : ℚ) (now : ℤ) (astate : List ((AlertType × ℕ) × AlertState)) :
    List ((AlertType × ℕ) × AlertState) × List Alert :=
  rules.foldl (checkRuleStep pid name cpu mem now) (astate, [])

/-- Driving `check_process` over a timeline of samples; returns one
entry per emitted alert, tagged with the tick's time. -/
def runCheckTimeline (rules : List AlertRule) (pid : ℕ) (name : List Char) :
    List (ℤ × ℚ × ℚ) → List ((AlertType × ℕ) × AlertState) → List ℤ
  | [], _ => []
  | (t, c, m) :: rest, astate =>
    let r := check_process rules pid name c m t astate
    r.2.map (fun _ => t) ++ runCheckTimeline rules pid name rest r.1

/-- Driving `handle_trigger` alone over an always-over-threshold
timeline (the general sustain/cooldown analysis). -/
def simTrigger (rule : AlertRule) (pid : ℕ) (name : List Char) :
    List (ℤ × ℚ) → List ((AlertType × ℕ) × AlertState) → List ℤ
  | [], _ => []
  | (t, v) :: rest, astate =>
    let r := handle_trigger rule pid name v t astate
    (match r.2 with
      | some _ => [t]
      | none => []) ++ simTrigger rule pid name rest r.1

/-- The emission schedule the spec describes: no emission before
`first_seen + duration`; after that, an emission whenever
`cooldown` has elapsed since the previous emission. -/
def specEmissions (dur cd : ℕ) (t0 : ℤ) : List ℤ → Option ℤ → List ℤ
  | [], _ => []
  | t :: ts, last =>
    if decide (t0 + (dur : ℤ) ≤ t) &&
        (match last with
          | none => true
          | some s => decide (s + (cd : ℤ) ≤ t)) then
      t :: specEmissions dur cd t0 ts (some t)
    else specEmissions dur cd t0 ts last

/-! ### Sustain/cooldown analysis -/

theorem klookup_single_self {κ β : Type} [BEq κ] [LawfulBEq κ] (k : κ) (v : β) :
    klookup [(k, v)] k = some v := by
  simp [klookup, List.find?]

theorem kinsert_single_self {κ β : Type} [BEq κ] [LawfulBEq κ] (k : κ) (v w : β) :
    kinsert [(k, v)] k w = [(k, w)] := by
  simp [kinsert]

/-- `handle_trigger` on the singleton state map holding the rule's own
key: explicit case form. -/
theorem handle_trigger_single (rule : AlertRule) (pid : ℕ) (name : List Char)
    (v : ℚ) (t : ℤ) (trig : Bool) (t0 L : ℤ) (cnt : ℕ) :
    handle_trigger rule pid name v t
        [((rule.alert_type, pid), ⟨trig, t0, L, cnt⟩)] =
      if (t - t0).toNat < rule.duration_secs then
        ([((rule.alert_type, pid), ⟨trig, t0, L, cnt⟩)], none)
      else if (t - L).toNat < rule.cooldown_secs then
        ([((rule.alert_type, pid), ⟨trig, t0, L, cnt⟩)], none)
      else
        ([((rule.alert_type, pid), ⟨true, t0, t, cnt + 1⟩)],
          some { alert_type := rule.alert_type,
                 severity := if v > rule.threshold * (3 / 2) then AlertSeverity.Critical
                   else AlertSeverity.Warning,
                 process_name := name, pid := pid, timestamp := t,
                 value := some v, threshold := some rule.threshold }) := by
  unfold handle_trigger
  simp only []
  rw [klookup_single_self]
  simp only [Option.getD_some]
  rw [kinsert_single_self]
  by_cases h1 : (t - t0).toNat < rule.duration_secs
  · rw [if_pos h1, if_pos h1]
  · rw [if_neg h1, if_neg h1]
    by_cases h2 : (t - L).toNat < rule.cooldown_secs
    · rw [if_pos h2, if_pos h2]
    · rw [if_neg h2, if_neg h2]
      rw [kinsert_single_self]

theorem simTrigger_cons (rule : AlertRule) (pid : ℕ) (name : List Char)
    (t : ℤ) (v : ℚ) (rest : List (ℤ × ℚ))
    (astate : List ((AlertType × ℕ) × AlertState)) :
    simTrigger rule pid name ((t, v) :: rest) astate =
      (match (handle_trigger rule pid name v t astate).2 with
        | some _ => [t]
        | none => []) ++
        simTrigger rule pid name rest (handle_trigger rule pid name v t astate).1 := rfl

theorem specEmissions_cons (dur cd : ℕ) (t0 t : ℤ) (ts : List ℤ)
    (last : Option ℤ) :
    specEmissions dur cd t0 (t :: ts) last =
      if decide (t0 + (dur : ℤ) ≤ t) &&
          (match last with
            | none => true
            | some s => decide (s + (cd : ℤ) ≤ t)) then
        t :: specEmissions dur cd t0 ts (some t)
      else specEmissions dur cd t0 ts last := rfl

/-- The relation between the stored `last_sent` and the spec schedule's
last-emission marker, over the remaining tick times. -/
def lastOK (cd : ℕ) (t0 L : ℤ) (last : Option ℤ) (times : List ℤ) : Prop :=
  match last with
  | none => L = t0 - ((cd : ℤ) + 1) ∧ ∀ t ∈ times, t0 ≤ t
  | some s => L = s ∧ t0 ≤ s ∧ ∀ t ∈ times, s < t

/-- While the condition holds continuously, `handle_trigger` emits
exactly on the spec's sustain/cooldown schedule. -/
theorem simTrigger_spec (rule : AlertRule) (pid : ℕ) (name : List Char) :
    ∀ (times : List (ℤ × ℚ)) (t0 L : ℤ) (last : Option ℤ) (trig : Bool) (cnt : ℕ),
      lastOK rule.cooldown_secs t0 L last (times.map Prod.fst) →
      List.Pairwise (· < ·) (times.map Prod.fst) →
      simTrigger rule pid name times
          [((rule.alert_type, pid), ⟨trig, t0, L, cnt⟩)] =
        specEmissions rule.duration_secs rule.cooldown_secs t0
          (times.map Prod.fst) last := by
  intro times
  induction times with
  | nil => intro t0 L last trig cnt _ _; rfl
  | cons tv rest ih =>
    intro t0 L last trig cnt hlast hpair
    obtain ⟨t, v⟩ := tv
    simp only [List.map_cons] at hpair ⊢
    have hpair' := List.pairwise_cons.mp hpair
    rw [simTrigger_cons, handle_trigger_single, specEmissions_cons]
    rcases last with _ | s
    · simp only [lastOK] at hlast
      obtain ⟨hL, hge⟩ := hlast
      have ht0 : t0 ≤ t := hge t (by simp)
      simp only []
      simp only [Bool.and_true]
      by_cases h1 : (t - t0).toNat < rule.duration_secs
      · rw [if_pos h1]
        simp only [List.nil_append]
        have hdur : ¬(t0 + (rule.duration_secs : ℤ) ≤ t) := by omega
        rw [if_neg (by simp [hdur])]
        exact ih t0 L none trig cnt
          ⟨hL, fun t' ht' => hge t' (by simp [ht'])⟩ hpair'.2
      · rw [if_neg h1]
        by_cases h2 : (t - L).toNat < rule.cooldown_secs
        · exfalso; omega
        · rw [if_neg h2]
          have hdur : t0 + (rule.duration_secs : ℤ) ≤ t := by omega
          have hc : decide (t0 + (rule.duration_secs : ℤ) ≤ t) = true := by
            simp [hdur]
          rw [if_pos hc]
          simp only []
          simp only [List.singleton_append]
          congr 1
          exact ih t0 t (some t) true (cnt + 1)
            ⟨rfl, ht0, fun t' ht' => hpair'.1 t' ht'⟩ hpair'.2
    · simp only [lastOK] at hlast
      obtain ⟨hL, hts, hgt⟩ := hlast
      have hst : s < t := hgt t (by simp)
      have ht0 : t0 ≤ t := by omega
      simp only []
      by_cases h1 : (t - t0).toNat < rule.duration_secs
      · rw [if_pos h1]
        simp only [List.nil_append]
        have hdur : ¬(t0 + (rule.duration_secs : ℤ) ≤ t) := by omega
        rw [if_neg (by simp [hdur])]
        exact ih t0 L (some s) trig cnt
          ⟨hL, hts, fun t' ht' => hgt t' (by simp [ht'])⟩ hpair'.2
      · rw [if_neg h1]
        by_cases h2 : (t - L).toNat < rule.cooldown_secs
        · rw [if_pos h2]
          simp only [List.nil_append]
          have hcool : ¬(s + (rule.cooldown_secs : ℤ) ≤ t) := by omega
          rw [if_neg (by simp [hcool])]
          exact ih t0 L (some s) trig cnt
            ⟨hL, hts, fun t' ht' => hgt t' (by simp [ht'])⟩ hpair'.2
        · rw [if_neg h2]
          have hdur : t0 + (rule.duration_secs : ℤ) ≤ t := by omega
          have hcool : s + (rule.cooldown_secs : ℤ) ≤ t := by omega
          have hc : (decide (t0 + (rule.duration_secs : ℤ) ≤ t) &&
              decide (s + (rule.cooldown_secs : ℤ) ≤ t)) = true := by
            simp [hdur, hcool]
          rw [if_pos hc]
          simp only []
          simp only [List.singleton_append]
          congr 1
          exact ih t0 t (some t) true (cnt + 1)
            ⟨rfl, ht0, fun t' ht' => hpair'.1 t' ht'⟩ hpair'.2

theorem handle_trigger_empty (rule : AlertRule) (pid : ℕ) (name : List Char)
    (v : ℚ) (t : ℤ) :
    handle_trigger rule pid name v t [] =
      if 0 < rule.duration_secs then
        ([((rule.alert_type, pid),
            ⟨false, t, t - ((rule.cooldown_secs : ℤ) + 1), 0⟩)], none)
      else
        ([((rule.alert_type, pid), ⟨true, t, t, 1⟩)],
          some { alert_type := rule.alert_type,
                 severity := if v > rule.threshold * (3 / 2) then AlertSeverity.Critical
                   else AlertSeverity.Warning,
                 process_name := name, pid := pid, timestamp := t,
                 value := some v, threshold := some rule.threshold }) := by
  unfold handle_trigger
  simp only [klookup, List.find?_nil, Option.map_none', Option.getD_none]
  by_cases hd : 0 < rule.duration_secs
  · rw [if_pos hd]
    have h1 : (t - t).toNat < rule.duration_secs := by omega
    rw [if_pos h1]
    simp [kinsert]
  · rw [if_neg hd]
    have h1 : ¬((t - t).toNat < rule.duration_secs) := by omega
    rw [if_neg h1]
    have h2 : ¬((t - (t - ((rule.cooldown_secs : ℤ) + 1))).toNat <
        rule.cooldown_secs) := by omega
    rw [if_neg h2]
    simp [kinsert]

/-- From the empty state the first over-threshold tick opens the sustain
window at its own time, and the whole run follows the spec schedule. -/
theorem simTrigger_from_empty (rule : AlertRule) (pid : ℕ) (name : List Char)
    (t0 : ℤ) (v0 : ℚ) (rest : List (ℤ × ℚ))
    (hpair : List.Pairwise (· < ·) (t0 :: rest.map Prod.fst)) :
    simTrigger rule pid name ((t0, v0) :: rest) [] =
      specEmissions rule.duration_secs rule.cooldown_secs t0
        (t0 :: rest.map Prod.fst) none := by
  have hpair' := List.pairwise_cons.mp hpair
  rw [simTrigger_cons, handle_trigger_empty, specEmissions_cons]
  simp only []
  simp only [Bool.and_true]
  by_cases hd : 0 < rule.duration_secs
  · rw [if_pos hd]
    simp only []
    simp only [List.nil_append]
    have hdur : ¬(t0 + (rule.duration_secs : ℤ) ≤ t0) := by omega
    rw [if_neg (by simp [hdur])]
    exact simTrigger_spec rule pid name rest t0
      (t0 - ((rule.cooldown_secs : ℤ) + 1)) none false 0
      ⟨rfl, fun t' ht' => le_of_lt (hpair'.1 t' ht')⟩ hpair'.2
  · rw [if_neg hd]
    have hdur : t0 + (rule.duration_secs : ℤ) ≤ t0 := by omega
    have hc : decide (t0 + (rule.duration_secs : ℤ) ≤ t0) = true := by
      simp [hdur]
    rw [if_pos hc]
    simp only []
    simp only [List.singleton_append]
    congr 1
    exact simTrigger_spec rule pid name rest t0 t0 (some t0) true 1
      ⟨rfl, le_refl t0, fun t' ht' => hpair'.1 t' ht'⟩ hpair'.2

/-- No spec-schedule emission precedes `first_seen + duration`. -/
theorem specEmissions_mem (dur cd : ℕ) (t0 : ℤ) :
    ∀ (times : List ℤ) (last : Option ℤ) (e : ℤ),
      e ∈ specEmissions dur cd t0 times last → t0 + (dur : ℤ) ≤ e := by
  intro times
  induction times with
  | nil => intro last e he; simp [specEmissions] at he
  | cons t ts ih =>
    intro last e he
    rw [specEmissions_cons] at he
    split at he
    · rename_i h
      simp only [Bool.and_eq_true, decide_eq_true_eq] at h
      rcases List.mem_cons.mp he with rfl | hmem
      · exact h.1
      · exact ih (some t) e hmem
    · exact ih last e he

def optToList : Option ℤ → List ℤ
  | none => []
  | some s => [s]

/-- Consecutive spec-schedule emissions are at least `cooldown` apart
(and the first comes at least `cooldown` after a pending `last`). -/
theorem specEmissions_chain (dur cd : ℕ) (t0 : ℤ) :
    ∀ (times : List ℤ) (last : Option ℤ),
      List.Chain' (fun a b : ℤ => a + (cd : ℤ) ≤ b)
        (optToList last ++ specEmissions dur cd t0 times last) := by
  intro times
  induction times with
  | nil =>
    intro last
    rcases last with _ | s
    · exact List.chain'_nil
    · exact List.chain'_singleton s
  | cons t ts ih =>
    intro last
    rw [specEmissions_cons]
    rcases last with _ | s
    · simp only []
      simp only [Bool.and_true]
      split
      · exact ih (some t)
      · exact ih none
    · simp only []
      split
      · rename_i h
        simp only [Bool.and_eq_true, decide_eq_true_eq] at h
        show List.Chain' _ (s :: t :: specEmissions dur cd t0 ts (some t))
        rw [List.chain'_cons]
        exact ⟨h.2, ih (some t)⟩
      · exact ih (some s)

/-- The concrete rule of the spec scenario: HighCpu, threshold 80,
duration 5 s, cooldown 60 s, no process filter. -/
def s5Rule : AlertRule :=
  { enabled := true, alert_type := AlertType.HighCpu, threshold := 80,
    duration_secs := 5, cooldown_secs := 60, process_filter := none }

/-- C5: while a process stays continuously over threshold, `handle_trigger`
emits nothing before `duration_secs` have elapsed since the condition was
first seen; once the duration is met it emits exactly per the schedule in
which each emission waits `cooldown_secs` after the previous one (the run
from the empty state equals `specEmissions`, whose emissions all lie at or
after `first_seen + duration` and are pairwise at least `cooldown` apart);
concretely, the rule `{HighCpu, threshold 80, duration 5, cooldown 60}` fed
cpu 95 at t = 0, 2, 4, 6, 8, 70 emits exactly at t = 6 and t = 70. -/
theorem C5_alert_sustain_cooldown :
    (∀ (rule : AlertRule) (pid : ℕ) (name : List Char) (t0 : ℤ) (v0 : ℚ)
        (rest : List (ℤ × ℚ)),
        List.Pairwise (· < ·) (t0 :: rest.map Prod.fst) →
        simTrigger rule pid name ((t0, v0) :: rest) [] =
          specEmissions rule.duration_secs rule.cooldown_secs t0
            (t0 :: rest.map Prod.fst) none) ∧
    (∀ (dur cd : ℕ) (t0 : ℤ) (times : List ℤ) (last : Option ℤ) (e : ℤ),
        e ∈ specEmissions dur cd t0 times last → t0 + (dur : ℤ) ≤ e) ∧
    (∀ (dur cd : ℕ) (t0 : ℤ) (times : List ℤ),
        List.Chain' (fun a b : ℤ => a + (cd : ℤ) ≤ b)
          (specEmissions dur cd t0 times none)) ∧
    runCheckTimeline [s5Rule] 1234 ['x']
      [(0, 95, 0), (2, 95, 0), (4, 95, 0), (6, 95, 0), (8, 95, 0), (70, 95, 0)]
      [] = [6, 70] := by
  refine ⟨simTrigger_from_empty, specEmissions_mem, ?_, by decide⟩
  intro dur cd t0 times
  exact specEmissions_chain dur cd t0 times none

/-- Witness for C5 at the spec's concrete scenario: the general schedule
theorem applied to the six-tick timeline, together with the concrete
emissions `[6, 70]`. -/
theorem C5_alert_sustain_cooldown_witness :
    simTrigger s5Rule 1234 ['x']
        [(0, 95), (2, 95), (4, 95), (6, 95), (8, 95), (70, 95)] [] =
      specEmissions 5 60 0 [0, 2, 4, 6, 8, 70] none ∧
    runCheckTimeline [s5Rule] 1234 ['x']
      [(0, 95, 0), (2, 95, 0), (4, 95, 0), (6, 95, 0), (8, 95, 0), (70, 95, 0)]
      [] = [6, 70] :=
  ⟨C5_alert_sustain_cooldown.1 s5Rule 1234 ['x'] 0 95
      [(2, 95), (4, 95), (6, 95), (8, 95), (70, 95)] (by decide),
    C5_alert_sustain_cooldown.2.2.2⟩

/-! ## tree.rs — the process tree -/

/-- `ProcessTree` (a node: the process, its children, its depth). -/
inductive PTree where
  | node (process : ProcessInfo) (children : List PTree) (level : ℕ)

def PTree.process : PTree → ProcessInfo
  | .node p _ _ => p

def PTree.children : PTree → List PTree
  | .node _ c _ => c

def PTree.level : PTree → ℕ
  | .node _ _ l => l

/-- The `process_map` lookup: `HashMap::insert` in input order, so the
last record with a given pid wins. -/
def pLookup (P : List ProcessInfo) (pid : ℕ) : Option ProcessInfo :=
  (P.filter (fun p => p.pid == pid)).getLast?

/-- `process_map.contains_key`. -/
def containsPid (P : List ProcessInfo) (pid : ℕ) : Bool :=
  P.any (fun p => p.pid == pid)

/-- The `children_map` entry for `pid`: child pids pushed in input
order. -/
def childPids (P : List ProcessInfo) (pid : ℕ) : List ℕ :=
  (P.filter (fun p => p.ppid == pid)).map (fun p => p.pid)

/-- `children.sort_by_key(|t| t.process.pid)` (a stable sort). -/
def sortByPid (l : List PTree) : List PTree :=
  l.mergeSort (fun a b => decide (a.process.pid ≤ b.process.pid))

/-- `ProcessTree::build_subtree`, with explicit recursion fuel (the Rust
recursion is unbounded; on every input where it terminates, any fuel at
least the recursion depth gives the same result). -/
def build_subtree (P : List ProcessInfo) : ℕ → ℕ → ℕ → Option PTree
  | 0, _, _ => none
  | fuel + 1, pid, level =>
    match pLookup P pid with
    | some process =>
      some (PTree.node process
        (sortByPid ((childPids P pid).filterMap
          (fun c => build_subtree P fuel c (level + 1)))) level)
    | none => none

/-- The root condition of `build_tree`: orphaned or parentless. -/
def rootRec (P : List ProcessInfo) (p : ProcessInfo) : Bool :=
  p.ppid == 0 || !containsPid P p.ppid

/-- `ProcessTree::build_tree`: one subtree per root record (in input
order), then sorted by root pid.  Fuel `|P| + 1` bounds the depth. -/
def build_tree (P : List ProcessInfo) : List PTree :=
  sortByPid ((P.filter (rootRec P)).filterMap
    (fun p => build_subtree P (P.length + 1) p.pid 0))

/- `ProcessTree::flatten` (pre-order traversal), and its extension to a
forest by concatenation. -/
mutual
def flatten : PTree → List (ProcessInfo × ℕ)
  | .node p cs l => (p, l) :: flattenList cs
def flattenList : List PTree → List (ProcessInfo × ℕ)
  | [] => []
  | t :: ts => flatten t ++ flattenList ts
end

/-- Length of the parent chain from a record up to its root (`none` when
the chain does not terminate within `fuel` steps — a ppid cycle). -/
def rankAux (P : List ProcessInfo) : ℕ → ProcessInfo → Option ℕ
  | 0, _ => none
  | fuel + 1, q =>
    if rootRec P q then some 0
    else match pLookup P q.ppid with
      | some par => (rankAux P fuel par).map (· + 1)
      | none => none

/-- `q`'s parent chain passes through `r` within `fuel` upward steps. -/
def descTo (P : List ProcessInfo) : ℕ → ProcessInfo → ProcessInfo → Bool
  | 0, q, r => q == r
  | fuel + 1, q, r => q == r ||
      (match pLookup P q.ppid with
        | some par => !rootRec P q && descTo P fuel par r
        | none => false)

theorem pLookup_mem {P : List ProcessInfo} {x : ℕ} {p : ProcessInfo}
    (h : pLookup P x = some p) : p ∈ P := by
  unfold pLookup at h
  have hmem : p ∈ P.filter (fun q => q.pid == x) :=
    List.mem_of_mem_getLast? (Option.mem_def.mpr h)
  exact (List.mem_filter.mp hmem).1

theorem pLookup_pid {P : List ProcessInfo} {x : ℕ} {p : ProcessInfo}
    (h : pLookup P x = some p) : p.pid = x := by
  unfold pLookup at h
  have hmem : p ∈ P.filter (fun q => q.pid == x) :=
    List.mem_of_mem_getLast? (Option.mem_def.mpr h)
  simpa using (List.mem_filter.mp hmem).2

theorem containsPid_iff {P : List ProcessInfo} {x : ℕ} :
    containsPid P x = true ↔ ∃ p ∈ P, p.pid = x := by
  unfold containsPid
  simp

theorem pLookup_isSome_of_contains {P : List ProcessInfo} {x : ℕ}
    (h : containsPid P x = true) : ∃ p, pLookup P x = some p := by
  obtain ⟨p, hp, hpx⟩ := containsPid_iff.mp h
  unfold pLookup
  have hne : P.filter (fun q => q.pid == x) ≠ [] := by
    intro hnil
    have hm : p ∈ P.filter (fun q => q.pid == x) :=
      List.mem_filter.mpr ⟨hp, by simpa using hpx⟩
    rw [hnil] at hm
    exact absurd hm (List.not_mem_nil p)
  exact Option.isSome_iff_exists.mp (List.getLast?_isSome.mpr hne)

theorem filter_pid_self : ∀ {P : List ProcessInfo},
    (P.map (fun p => p.pid)).Nodup → ∀ {r : ProcessInfo}, r ∈ P →
      P.filter (fun q => q.pid == r.pid) = [r] := by
  intro P
  induction P with
  | nil => intro _ r hr; cases hr
  | cons a P ih =>
    intro hnodup r hr
    rw [List.map_cons, List.nodup_cons] at hnodup
    obtain ⟨hnotin, hnd⟩ := hnodup
    rcases List.mem_cons.mp hr with rfl | hr'
    · rw [List.filter_cons, if_pos (by simp)]
      have hnil : P.filter (fun q => q.pid == r.pid) = [] := by
        rw [List.filter_eq_nil_iff]
        intro q hq hq2
        exact hnotin (List.mem_map.mpr ⟨q, hq, by simpa using hq2⟩)
      rw [hnil]
    · rw [List.filter_cons, if_neg (by
        simp only [beq_iff_eq]
        intro he
        exact hnotin (List.mem_map.mpr ⟨r, hr', he.symm⟩))]
      exact ih hnd hr'

theorem pLookup_self {P : List ProcessInfo}
    (hnodup : (P.map (fun p => p.pid)).Nodup) {r : ProcessInfo} (hr : r ∈ P) :
    pLookup P r.pid = some r := by
  unfold pLookup
  rw [filter_pid_self hnodup hr]
  rfl

theorem filter_beq_self : ∀ {P : List ProcessInfo}, P.Nodup →
    ∀ {r : ProcessInfo}, r ∈ P → P.filter (fun q => q == r) = [r] := by
  intro P
  induction P with
  | nil => intro _ r hr; cases hr
  | cons a P ih =>
    intro hnodup r hr
    rw [List.nodup_cons] at hnodup
    obtain ⟨hnotin, hnd⟩ := hnodup
    rcases List.mem_cons.mp hr with rfl | hr'
    · rw [List.filter_cons, if_pos (by simp)]
      have hnil : P.filter (fun q => q == r) = [] := by
        rw [List.filter_eq_nil_iff]
        intro q hq hq2
        rw [beq_iff_eq] at hq2
        subst hq2
        exact hnotin hq
      rw [hnil]
    · rw [List.filter_cons, if_neg (by
        simp only [beq_iff_eq]
        intro he
        subst he
        exact hnotin hr')]
      exact ih hnd hr'

theorem count_filter_my {α : Type} [DecidableEq α] (a : α) (p : α → Bool)
    (l : List α) :
    (l.filter p).count a = if p a = true then l.count a else 0 := by
  by_cases hpa : p a = true
  · rw [if_pos hpa, List.count_filter hpa]
  · rw [if_neg hpa, List.count_eq_zero]
    intro hmem
    exact hpa (List.of_mem_filter hmem)

theorem count_flatten_my {α : Type} [DecidableEq α] (a : α)
    (L : List (List α)) :
    L.flatten.count a = (L.map (fun l => l.count a)).sum := by
  induction L with
  | nil => simp
  | cons l L ih =>
    rw [List.flatten_cons, List.count_append, List.map_cons, List.sum_cons, ih]

theorem sum_indicator_unique {α : Type} : ∀ {l : List α}, l.Nodup →
    ∀ (g : α → Bool) (c0 : α), c0 ∈ l → g c0 = true →
      (∀ c1 ∈ l, ∀ c2 ∈ l, g c1 = true → g c2 = true → c1 = c2) →
      (l.map (fun c => if g c = true then (1 : ℕ) else 0)).sum = 1 := by
  intro l
  induction l with
  | nil => intro _ g c0 hc0; cases hc0
  | cons a l ih =>
    intro hl g c0 hc0 hg huniq
    rw [List.nodup_cons] at hl
    rw [List.map_cons, List.sum_cons]
    rcases List.mem_cons.mp hc0 with rfl | hc0'
    · rw [if_pos hg]
      have hrest : (l.map (fun c => if g c = true then (1 : ℕ) else 0)).sum = 0 := by
        apply List.sum_eq_zero
        intro x hx
        rw [List.mem_map] at hx
        obtain ⟨c, hc, rfl⟩ := hx
        have hgc : ¬(g c = true) := by
          intro hgc
          have hce := huniq c (List.mem_cons_of_mem _ hc) c0
            (List.mem_cons_self _ _) hgc hg
          subst hce
          exact hl.1 hc
        rw [if_neg hgc]
      rw [hrest]
    · have hga : ¬(g a = true) := by
        intro h
        have hae := huniq a (List.mem_cons_self a l) c0
          (List.mem_cons_of_mem _ hc0') h hg
        rw [hae] at hl
        exact hl.1 hc0'
      rw [if_neg hga, Nat.zero_add]
      exact ih hl.2 g c0 hc0' hg
        (fun c1 h1 c2 h2 => huniq c1 (List.mem_cons_of_mem _ h1) c2
          (List.mem_cons_of_mem _ h2))

theorem filterMap_eq_map_of_some {α β : Type} {f : α → Option β} {g : α → β} :
    ∀ {l : List α}, (∀ a ∈ l, f a = some (g a)) → l.filterMap f = l.map g := by
  intro l
  induction l with
  | nil => intro _; rfl
  | cons a l ih =>
    intro h
    rw [List.filterMap_cons_some (h a (List.mem_cons_self a l)),
      List.map_cons, ih (fun b hb => h b (List.mem_cons_of_mem a hb))]

theorem flattenList_eq (L : List PTree) :
    flattenList L = (L.map flatten).flatten := by
  induction L with
  | nil => simp [flattenList]
  | cons t ts ih =>
    simp only [flattenList, List.map_cons, List.flatten_cons]
    rw [ih]

theorem flattenList_perm_of_perm {L1 L2 : List PTree}
    (h : List.Perm L1 L2) :
    List.Perm (flattenList L1) (flattenList L2) := by
  rw [flattenList_eq, flattenList_eq]
  exact (h.map flatten).flatten

theorem join_map_perm_congr {α β : Type} {f g : α → List β} :
    ∀ {l : List α}, (∀ a ∈ l, List.Perm (f a) (g a)) →
      List.Perm (l.map f).flatten (l.map g).flatten := by
  intro l
  induction l with
  | nil => intro _; exact List.Perm.refl _
  | cons a l ih =>
    intro h
    rw [List.map_cons, List.map_cons, List.flatten_cons, List.flatten_cons]
    exact (h a (List.mem_cons_self a l)).append
      (ih (fun b hb => h b (List.mem_cons_of_mem a hb)))

theorem bool_not_of_ne {b : Bool} (h : ¬(b = true)) : (!b) = true := by
  cases b
  · rfl
  · exact absurd rfl h

theorem descTo_self (P : List ProcessInfo) (m : ℕ) (q : ProcessInfo) :
    descTo P m q q = true := by
  cases m with
  | zero => simp [descTo]
  | succ m => simp [descTo]

theorem descTo_mono (P : List ProcessInfo) : ∀ {m : ℕ} {m' : ℕ}
    {q r : ProcessInfo}, m ≤ m' → descTo P m q r = true →
      descTo P m' q r = true := by
  intro m
  induction m with
  | zero =>
    intro m' q r _ h
    simp only [descTo] at h
    cases m' with
    | zero => exact h
    | succ m' =>
      simp only [descTo, Bool.or_eq_true]
      exact Or.inl h
  | succ m0 ih =>
    intro m' q r hle h
    simp only [descTo, Bool.or_eq_true] at h
    cases m' with
    | zero => exact absurd hle (by omega)
    | succ m1 =>
      simp only [descTo, Bool.or_eq_true]
      rcases h with h | h
      · exact Or.inl h
      · right
        rcases hpl : pLookup P q.ppid with _ | par
        · rw [hpl] at h; exact absurd h (by simp)
        · rw [hpl] at h
          simp only [Bool.and_eq_true] at h ⊢
          exact ⟨h.1, ih (Nat.succ_le_succ_iff.mp hle) h.2⟩

theorem rankAux_lt (P : List ProcessInfo) : ∀ {F : ℕ} {q : ProcessInfo} {k : ℕ},
    rankAux P F q = some k → k < F := by
  intro F
  induction F with
  | zero => intro q k h; simp [rankAux] at h
  | succ F ih =>
    intro q k h
    simp only [rankAux] at h
    by_cases hr : rootRec P q = true
    · rw [if_pos hr] at h
      cases h
      exact Nat.succ_pos F
    · rw [if_neg hr] at h
      rcases hpl : pLookup P q.ppid with _ | par
      · rw [hpl] at h; exact absurd h (by simp)
      · rw [hpl] at h
        simp only [Option.map_eq_some'] at h
        obtain ⟨k0, hk0, hkk⟩ := h
        have := ih hk0
        omega

theorem rankAux_mono (P : List ProcessInfo) : ∀ {F F' : ℕ} {q : ProcessInfo}
    {k : ℕ}, F ≤ F' → rankAux P F q = some k → rankAux P F' q = some k := by
  intro F
  induction F with
  | zero => intro F' q k _ h; simp [rankAux] at h
  | succ F ih =>
    intro F' q k hle h
    cases F' with
    | zero => exact absurd hle (by omega)
    | succ F1 =>
      simp only [rankAux] at h ⊢
      by_cases hr : rootRec P q = true
      · rw [if_pos hr] at h ⊢; exact h
      · rw [if_neg hr] at h ⊢
        rcases hpl : pLookup P q.ppid with _ | par
        · rw [hpl] at h; exact absurd h (by simp)
        · rw [hpl] at h
          simp only [Option.map_eq_some'] at h ⊢
          obtain ⟨k0, hk0, hkk⟩ := h
          exact ⟨k0, ih (Nat.succ_le_succ_iff.mp hle) hk0, hkk⟩

theorem rankAux_step {P : List ProcessInfo} {F : ℕ} {q par : ProcessInfo}
    {k : ℕ} (hr : rootRec P q = false) (hpl : pLookup P q.ppid = some par)
    (h : rankAux P (F + 1) q = some k) :
    ∃ k0, k = k0 + 1 ∧ rankAux P F par = some k0 := by
  simp only [rankAux] at h
  rw [if_neg (by simp [hr]), hpl] at h
  simp only [Option.map_eq_some'] at h
  obtain ⟨k0, hk0, hkk⟩ := h
  exact ⟨k0, hkk.symm, hk0⟩

theorem rank_child {P : List ProcessInfo} {F : ℕ} {r c : ProcessInfo}
    {k n : ℕ} (hc_root : rootRec P c = false)
    (hpl : pLookup P c.ppid = some r)
    (hkc : rankAux P (F + 1) c = some k)
    (hnr : rankAux P (F + 1) r = some n) : k = n + 1 := by
  obtain ⟨k0, rfl, hpar⟩ := rankAux_step hc_root hpl hkc
  have hup : rankAux P (F + 1) r = some k0 := rankAux_mono P (by omega) hpar
  rw [hup] at hnr
  cases hnr
  rfl

theorem descTo_rank (P : List ProcessInfo) : ∀ {m : ℕ} {q x : ProcessInfo},
    descTo P m q x = true → ∀ {F n : ℕ}, rankAux P F q = some n →
      ∃ k, rankAux P F x = some k ∧ (x = q ∨ k < n) := by
  intro m
  induction m with
  | zero =>
    intro q x h F n hq
    simp only [descTo] at h
    rw [beq_iff_eq] at h
    subst h
    exact ⟨n, hq, Or.inl rfl⟩
  | succ m ih =>
    intro q x h F n hq
    simp only [descTo, Bool.or_eq_true] at h
    rcases h with h | h
    · rw [beq_iff_eq] at h
      subst h
      exact ⟨n, hq, Or.inl rfl⟩
    · rcases hpl : pLookup P q.ppid with _ | par
      · rw [hpl] at h; exact absurd h (by simp)
      · rw [hpl] at h
        simp only [Bool.and_eq_true] at h
        have hq_root : rootRec P q = false := by
          have h1 := h.1
          revert h1
          cases rootRec P q
          · intro _; rfl
          · intro h1; exact absurd h1 (by simp)
        cases F with
        | zero => simp [rankAux] at hq
        | succ F1 =>
          obtain ⟨k0, rfl, hpar⟩ := rankAux_step hq_root hpl hq
          have hpar' : rankAux P (F1 + 1) par = some k0 :=
            rankAux_mono P (by omega) hpar
          obtain ⟨k, hk, hor⟩ := ih h.2 hpar'
          refine ⟨k, hk, Or.inr ?_⟩
          rcases hor with hxe | hlt
          · have : k = k0 := by
              rw [hxe, hpar'] at hk
              exact (Option.some.inj hk).symm
            omega
          · omega

theorem descTo_linear (P : List ProcessInfo) : ∀ {m m' : ℕ}
    {a x y : ProcessInfo}, descTo P m a x = true → descTo P m' a y = true →
      descTo P m' x y = true ∨ descTo P m y x = true := by
  intro m
  induction m with
  | zero =>
    intro m' a x y hx hy
    simp only [descTo] at hx
    rw [beq_iff_eq] at hx
    subst hx
    exact Or.inl hy
  | succ m ih =>
    intro m' a x y hx hy
    simp only [descTo, Bool.or_eq_true] at hx
    rcases hx with hax | hx
    · rw [beq_iff_eq] at hax; subst hax; exact Or.inl hy
    · cases m' with
      | zero =>
        simp only [descTo] at hy
        rw [beq_iff_eq] at hy
        subst hy
        refine Or.inr ?_
        simp only [descTo, Bool.or_eq_true]
        exact Or.inr hx
      | succ m1 =>
        simp only [descTo, Bool.or_eq_true] at hy
        rcases hy with hay | hy
        · rw [beq_iff_eq] at hay; subst hay
          refine Or.inr ?_
          simp only [descTo, Bool.or_eq_true]
          exact Or.inr hx
        · rcases hpl : pLookup P a.ppid with _ | par
          · rw [hpl] at hx; exact absurd hx (by simp)
          · rw [hpl] at hx hy
            simp only [Bool.and_eq_true] at hx hy
            rcases ih hx.2 hy.2 with h | h
            · exact Or.inl (descTo_mono P (by omega) h)
            · exact Or.inr (descTo_mono P (by omega) h)

theorem descTo_split (P : List ProcessInfo) : ∀ {m : ℕ} {a r : ProcessInfo},
    a ∈ P → descTo P (m + 1) a r = true → a ≠ r →
      ∃ c, c ∈ P ∧ pLookup P c.ppid = some r ∧ descTo P m a c = true := by
  intro m
  induction m with
  | zero =>
    intro a r ha h hne
    simp only [descTo, Bool.or_eq_true] at h
    rcases h with h | h
    · rw [beq_iff_eq] at h; exact absurd h hne
    · rcases hpl : pLookup P a.ppid with _ | par
      · rw [hpl] at h; exact absurd h (by simp)
      · rw [hpl] at h
        simp only [Bool.and_eq_true] at h
        have hpr : par = r := by
          have h2 := h.2
          simp only [descTo] at h2
          rwa [beq_iff_eq] at h2
        subst hpr
        exact ⟨a, ha, hpl, by simp [descTo]⟩
  | succ m ih =>
    intro a r ha h hne
    simp only [descTo, Bool.or_eq_true] at h
    rcases h with h | h
    · rw [beq_iff_eq] at h; exact absurd h hne
    · rcases hpl : pLookup P a.ppid with _ | par
      · rw [hpl] at h; exact absurd h (by simp)
      · rw [hpl] at h
        simp only [Bool.and_eq_true] at h
        by_cases hpr : par = r
        · subst hpr
          exact ⟨a, ha, hpl, descTo_self P _ _⟩
        · obtain ⟨c, hc, hcr, hdc⟩ := ih (pLookup_mem hpl) h.2 hpr
          refine ⟨c, hc, hcr, ?_⟩
          simp only [descTo, Bool.or_eq_true]
          right
          rw [hpl]
          simp only [Bool.and_eq_true]
          exact ⟨h.1, hdc⟩

theorem child_not_root {P : List ProcessInfo} (h0 : ∀ p ∈ P, p.pid ≠ 0)
    {r c : ProcessInfo} (hr : r ∈ P) (hc : c.ppid = r.pid) :
    rootRec P c = false := by
  unfold rootRec
  rw [hc]
  have h1 : (r.pid == 0) = false := by
    rw [beq_eq_false_iff_ne]
    exact h0 r hr
  have h2 : containsPid P r.pid = true := containsPid_iff.mpr ⟨r, hr, rfl⟩
  rw [h1, h2]
  rfl

theorem descTo_up (P : List ProcessInfo) {r : ProcessInfo}
    (hcroot : ∀ q ∈ P, q.ppid = r.pid → rootRec P q = false)
    (hplr : pLookup P r.pid = some r) :
    ∀ {m : ℕ} {a c : ProcessInfo}, a ∈ P → c ∈ P → c.ppid = r.pid →
      descTo P m a c = true → descTo P (m + 1) a r = true := by
  intro m
  induction m with
  | zero =>
    intro a c ha hc hcp h
    simp only [descTo] at h
    rw [beq_iff_eq] at h
    subst h
    simp only [descTo, Bool.or_eq_true]
    right
    rw [hcp, hplr]
    simp only [Bool.and_eq_true]
    exact ⟨by rw [hcroot a ha hcp]; rfl, descTo_self P 0 r⟩
  | succ m ih =>
    intro a c ha hc hcp h
    simp only [descTo, Bool.or_eq_true] at h
    rcases h with h | h
    · rw [beq_iff_eq] at h
      subst h
      simp only [descTo, Bool.or_eq_true]
      right
      rw [hcp, hplr]
      simp only [Bool.and_eq_true]
      exact ⟨by rw [hcroot a ha hcp]; rfl, descTo_self P (m + 1) r⟩
    · rcases hpl : pLookup P a.ppid with _ | par
      · rw [hpl] at h; exact absurd h (by simp)
      · rw [hpl] at h
        simp only [Bool.and_eq_true] at h
        have hrec := ih (pLookup_mem hpl) hc hcp h.2
        simp only [descTo, Bool.or_eq_true]
        right
        rw [hpl]
        simp only [Bool.and_eq_true]
        exact ⟨h.1, hrec⟩

theorem rank_to_root (P : List ProcessInfo) : ∀ {F : ℕ} {a : ProcessInfo}
    {k : ℕ}, a ∈ P → rankAux P F a = some k →
      ∃ r, r ∈ P ∧ rootRec P r = true ∧ descTo P k a r = true := by
  intro F
  induction F with
  | zero => intro a k _ h; simp [rankAux] at h
  | succ F ih =>
    intro a k ha h
    simp only [rankAux] at h
    by_cases hr : rootRec P a = true
    · rw [if_pos hr] at h
      cases h
      exact ⟨a, ha, hr, descTo_self P 0 a⟩
    · rw [if_neg hr] at h
      rcases hpl : pLookup P a.ppid with _ | par
      · rw [hpl] at h; exact absurd h (by simp)
      · rw [hpl] at h
        simp only [Option.map_eq_some'] at h
        obtain ⟨k0, hk0, hkk⟩ := h
        subst hkk
        obtain ⟨r, hrP, hroot, hdesc⟩ := ih (pLookup_mem hpl) hk0
        refine ⟨r, hrP, hroot, ?_⟩
        simp only [descTo, Bool.or_eq_true]
        right
        rw [hpl]
        simp only [Bool.and_eq_true]
        exact ⟨bool_not_of_ne hr, hdesc⟩

theorem descTo_of_root {P : List ProcessInfo} {f : ℕ} {r1 r2 : ProcessInfo}
    (hroot : rootRec P r1 = true) (h : descTo P f r1 r2 = true) :
    r1 = r2 := by
  cases f with
  | zero =>
    simp only [descTo] at h
    rwa [beq_iff_eq] at h
  | succ f =>
    simp only [descTo, Bool.or_eq_true] at h
    rcases h with h | h
    · rwa [beq_iff_eq] at h
    · rcases hpl : pLookup P r1.ppid with _ | par
      · rw [hpl] at h; exact absurd h (by simp)
      · rw [hpl] at h
        simp only [Bool.and_eq_true] at h
        exact absurd h.1 (by simp [hroot])

theorem filterMap_const_none {α β : Type} (l : List α) :
    l.filterMap (fun _ => (none : Option β)) = [] := by
  induction l with
  | nil => rfl
  | cons a l ih => rw [List.filterMap_cons_none rfl, ih]

theorem option_eq_some_getD {α : Type} {o : Option α} (d : α)
    (h : o.isSome = true) : o = some (o.getD d) := by
  cases o
  · simp at h
  · rfl

theorem build_subtree_succ (P : List ProcessInfo) (m pid level : ℕ) :
    build_subtree P (m + 1) pid level =
      match pLookup P pid with
      | some process =>
        some (PTree.node process
          (sortByPid ((childPids P pid).filterMap
            (fun c => build_subtree P m c (level + 1)))) level)
      | none => none := rfl

/-- The key multiset decomposition: the records whose parent chain
reaches `r` within `m + 1` steps are `r` itself together with, for each
child `c` of `r`, the records reaching `c` within `m` steps. -/
theorem filter_descTo_decomp (P : List ProcessInfo)
    (hnodup : (P.map (fun p => p.pid)).Nodup)
    (h0 : ∀ p ∈ P, p.pid ≠ 0)
    (hacyc : ∀ p ∈ P, (rankAux P (P.length + 1) p).isSome = true)
    (m : ℕ) {r : ProcessInfo} (hr : r ∈ P) :
    List.Perm (P.filter (fun q => descTo P (m + 1) q r))
      (r :: ((P.filter (fun c => c.ppid == r.pid)).map
        (fun c => P.filter (fun q => descTo P m q c))).flatten) := by
  have hndP : P.Nodup := List.Nodup.of_map _ hnodup
  have hplr : pLookup P r.pid = some r := pLookup_self hnodup hr
  obtain ⟨n, hn⟩ := Option.isSome_iff_exists.mp (hacyc r hr)
  have hrank_of_c : ∀ c ∈ P.filter (fun c => c.ppid == r.pid),
      rankAux P (P.length + 1) c = some (n + 1) := by
    intro c hc
    obtain ⟨hcP, hcp⟩ := List.mem_filter.mp hc
    have hcpp : c.ppid = r.pid := by simpa using hcp
    obtain ⟨k, hk⟩ := Option.isSome_iff_exists.mp (hacyc c hcP)
    have hkn : k = n + 1 := rank_child (child_not_root h0 hr hcpp)
      (by rw [hcpp]; exact hplr) hk hn
    rw [← hkn]
    exact hk
  rw [List.perm_iff_count]
  intro a
  rw [count_filter_my, List.count_cons, count_flatten_my, List.map_map]
  rw [List.map_congr_left (by
    intro c _
    show ((fun l => l.count a) ∘ (fun c => P.filter (fun q => descTo P m q c))) c =
      (fun c => if descTo P m a c = true then P.count a else 0) c
    simp only [Function.comp]
    rw [count_filter_my])]
  by_cases hmem : a ∈ P
  · have hcnt : P.count a = 1 := List.count_eq_one_of_mem hndP hmem
    by_cases har : a = r
    · subst har
      rw [if_pos (descTo_self P (m + 1) a)]
      have haa : (a == a) = true := by simp
      rw [if_pos haa, hcnt]
      have hsum : ((P.filter (fun c => c.ppid == a.pid)).map
          (fun c => if descTo P m a c = true then (1 : ℕ) else 0)).sum = 0 := by
        apply List.sum_eq_zero
        intro x hx
        rw [List.mem_map] at hx
        obtain ⟨c, hc, rfl⟩ := hx
        have hdes : ¬(descTo P m a c = true) := by
          intro hdes
          obtain ⟨j, hj, hor⟩ := descTo_rank P hdes hn
          have hkc := hrank_of_c c hc
          rcases hor with hce | hlt
          · subst hce
            rw [hkc] at hn
            cases hn
          · rw [hkc] at hj
            cases hj
            omega
        exact if_neg hdes
      rw [hsum]
    · have hra : ¬((r == a) = true) := by
        simp only [beq_iff_eq]
        intro he
        exact har he.symm
      rw [if_neg hra]
      by_cases hdes : descTo P (m + 1) a r = true
      · rw [if_pos hdes, hcnt]
        obtain ⟨c0, hc0P, hc0par, hc0des⟩ := descTo_split P hmem hdes har
        have hc0pp : c0.ppid = r.pid := (pLookup_pid hc0par).symm
        have hc0crs : c0 ∈ P.filter (fun c => c.ppid == r.pid) :=
          List.mem_filter.mpr ⟨hc0P, by simp [hc0pp]⟩
        have hkey : ∀ c1 ∈ P.filter (fun c => c.ppid == r.pid),
            ∀ c2 ∈ P.filter (fun c => c.ppid == r.pid),
            c1 ≠ c2 → ¬(descTo P m c1 c2 = true) := by
          intro c1 h1 c2 h2 hne hdc
          obtain ⟨j, hj, hor⟩ := descTo_rank P hdc (hrank_of_c c1 h1)
          rcases hor with hce | hlt
          · exact hne hce.symm
          · rw [hrank_of_c c2 h2] at hj
            cases hj
            omega
        have huniq : ∀ c1 ∈ P.filter (fun c => c.ppid == r.pid),
            ∀ c2 ∈ P.filter (fun c => c.ppid == r.pid),
            descTo P m a c1 = true → descTo P m a c2 = true → c1 = c2 := by
          intro c1 h1 c2 h2 g1 g2
          by_contra hne
          rcases descTo_linear P g1 g2 with h | h
          · exact hkey c1 h1 c2 h2 hne h
          · exact hkey c2 h2 c1 h1 (fun he => hne he.symm) h
        rw [sum_indicator_unique (List.Nodup.filter _ hndP)
          (fun c => descTo P m a c) c0 hc0crs hc0des huniq]
      · rw [if_neg hdes]
        simp only [hcnt]
        have hsum : ((P.filter (fun c => c.ppid == r.pid)).map
            (fun c => if descTo P m a c = true then (1 : ℕ) else 0)).sum = 0 := by
          apply List.sum_eq_zero
          intro x hx
          rw [List.mem_map] at hx
          obtain ⟨c, hc, rfl⟩ := hx
          have hd : ¬(descTo P m a c = true) := by
            intro hdc
            obtain ⟨hcP, hcp⟩ := List.mem_filter.mp hc
            have hcpp : c.ppid = r.pid := by simpa using hcp
            exact hdes (descTo_up P
              (fun q hq hqp => child_not_root h0 hr hqp) hplr
              hmem hcP hcpp hdc)
          exact if_neg hd
        rw [hsum]
  · have hcnt0 : P.count a = 0 := List.count_eq_zero.mpr hmem
    have hra : ¬((r == a) = true) := by
      simp only [beq_iff_eq]
      intro he
      exact hmem (he ▸ hr)
    rw [if_neg hra, hcnt0]
    have hsum : ((P.filter (fun c => c.ppid == r.pid)).map
        (fun c => if descTo P m a c = true then (0 : ℕ) else 0)).sum = 0 := by
      apply List.sum_eq_zero
      intro x hx
      rw [List.mem_map] at hx
      obtain ⟨c, _, rfl⟩ := hx
      exact ite_self 0
    rw [hsum, ite_self]

/-- The subtree built for a child, unwrapped (total by default value;
used only where the build is known to succeed). -/
def subT (P : List ProcessInfo) (m l : ℕ) (c : ProcessInfo) : PTree :=
  (build_subtree P m c.pid l).getD (PTree.node c [] 0)

/-- Flattening the subtree built at `r` with fuel `m + 1` yields exactly
the records whose parent chain reaches `r` within `m` steps. -/
theorem flatten_subtree_perm (P : List ProcessInfo)
    (hnodup : (P.map (fun p => p.pid)).Nodup)
    (h0 : ∀ p ∈ P, p.pid ≠ 0)
    (hacyc : ∀ p ∈ P, (rankAux P (P.length + 1) p).isSome = true) :
    ∀ (m : ℕ) {r : ProcessInfo}, r ∈ P → ∀ (l : ℕ) {t : PTree},
      build_subtree P (m + 1) r.pid l = some t →
      List.Perm ((flatten t).map Prod.fst)
        (P.filter (fun q => descTo P m q r)) := by
  have hndP : P.Nodup := List.Nodup.of_map _ hnodup
  intro m
  induction m with
  | zero =>
    intro r hr l t ht
    rw [build_subtree_succ, pLookup_self hnodup hr] at ht
    simp only [build_subtree] at ht
    rw [filterMap_const_none] at ht
    rw [show sortByPid [] = [] from List.mergeSort_nil] at ht
    obtain rfl : t = PTree.node r [] l := (Option.some.inj ht).symm
    have hfl : (flatten (PTree.node r [] l)).map Prod.fst = [r] := by
      simp [flatten, flattenList]
    rw [hfl]
    rw [List.filter_congr (by
      intro q _
      show descTo P 0 q r = (q == r)
      rfl)]
    rw [filter_beq_self hndP hr]
  | succ m ih =>
    intro r hr l t ht
    rw [build_subtree_succ, pLookup_self hnodup hr] at ht
    simp only [] at ht
    obtain rfl : t = PTree.node r
        (sortByPid ((childPids P r.pid).filterMap
          (fun c => build_subtree P (m + 1) c (l + 1)))) l :=
      (Option.some.inj ht).symm
    have hsome : ∀ c ∈ P.filter (fun c => c.ppid == r.pid),
        build_subtree P (m + 1) c.pid (l + 1) =
          some (subT P (m + 1) (l + 1) c) := by
      intro c hc
      have hcP : c ∈ P := (List.mem_filter.mp hc).1
      apply option_eq_some_getD
      rw [build_subtree_succ, pLookup_self hnodup hcP]
      rfl
    have hinner : (childPids P r.pid).filterMap
        (fun c => build_subtree P (m + 1) c (l + 1)) =
          (P.filter (fun c => c.ppid == r.pid)).map (subT P (m + 1) (l + 1)) := by
      rw [show childPids P r.pid =
        (P.filter (fun p => p.ppid == r.pid)).map (fun p => p.pid) from rfl]
      rw [List.filterMap_map]
      exact filterMap_eq_map_of_some hsome
    refine List.Perm.trans ?_
      (filter_descTo_decomp P hnodup h0 hacyc m hr).symm
    have hfl : (flatten (PTree.node r
        (sortByPid ((childPids P r.pid).filterMap
          (fun c => build_subtree P (m + 1) c (l + 1)))) l)).map Prod.fst =
        r :: (flattenList (sortByPid ((childPids P r.pid).filterMap
          (fun c => build_subtree P (m + 1) c (l + 1))))).map Prod.fst := by
      simp [flatten]
    rw [hfl]
    apply List.Perm.cons
    have h1 : List.Perm
        ((flattenList (sortByPid ((childPids P r.pid).filterMap
          (fun c => build_subtree P (m + 1) c (l + 1))))).map Prod.fst)
        ((flattenList ((childPids P r.pid).filterMap
          (fun c => build_subtree P (m + 1) c (l + 1)))).map Prod.fst) :=
      (flattenList_perm_of_perm (List.mergeSort_perm _ _)).map _
    refine h1.trans ?_
    rw [hinner, flattenList_eq, List.map_flatten, List.map_map, List.map_map]
    exact join_map_perm_congr (fun c hc =>
      ih (List.mem_filter.mp hc).1 (l + 1) (hsome c hc))

/-- Every record belongs to exactly one root's chain-closure, so the
per-root filters jointly cover `P` exactly once. -/
theorem roots_filter_perm (P : List ProcessInfo)
    (hnodup : (P.map (fun p => p.pid)).Nodup)
    (h0 : ∀ p ∈ P, p.pid ≠ 0)
    (hacyc : ∀ p ∈ P, (rankAux P (P.length + 1) p).isSome = true) :
    List.Perm ((P.filter (rootRec P)).map
      (fun r => P.filter (fun q => descTo P P.length q r))).flatten P := by
  have hndP : P.Nodup := List.Nodup.of_map _ hnodup
  rw [List.perm_iff_count]
  intro a
  rw [count_flatten_my, List.map_map]
  rw [List.map_congr_left (by
    intro r _
    show ((fun l => l.count a) ∘ (fun r => P.filter (fun q => descTo P P.length q r))) r =
      (fun r => if descTo P P.length a r = true then P.count a else 0) r
    simp only [Function.comp]
    rw [count_filter_my])]
  by_cases hmem : a ∈ P
  · have hcnt : P.count a = 1 := List.count_eq_one_of_mem hndP hmem
    simp only [hcnt]
    obtain ⟨k, hk⟩ := Option.isSome_iff_exists.mp (hacyc a hmem)
    obtain ⟨r0, hr0P, hr0root, hr0des⟩ := rank_to_root P hmem hk
    have hklt : k < P.length + 1 := rankAux_lt P hk
    have hdes : descTo P P.length a r0 = true := descTo_mono P (by omega) hr0des
    have hr0crs : r0 ∈ P.filter (rootRec P) := List.mem_filter.mpr ⟨hr0P, hr0root⟩
    have huniq : ∀ r1 ∈ P.filter (rootRec P), ∀ r2 ∈ P.filter (rootRec P),
        descTo P P.length a r1 = true → descTo P P.length a r2 = true →
          r1 = r2 := by
      intro r1 h1 r2 h2 g1 g2
      rcases descTo_linear P g1 g2 with h | h
      · exact descTo_of_root (List.mem_filter.mp h1).2 h
      · exact (descTo_of_root (List.mem_filter.mp h2).2 h).symm
    rw [sum_indicator_unique (List.Nodup.filter _ hndP)
      (fun r => descTo P P.length a r) r0 hr0crs hdes huniq]
  · have hcnt0 : P.count a = 0 := List.count_eq_zero.mpr hmem
    simp only [hcnt0, ite_self]
    apply List.sum_eq_zero
    intro x hx
    rw [List.mem_map] at hx
    obtain ⟨r, _, rfl⟩ := hx
    rfl

/-- C8 (amended): for records with unique nonzero pids whose parent
chains all terminate (no ppid cycle), concatenating `flatten` over
`build_tree`'s roots is a permutation of the input, and every record
with ppid 0 or an absent parent pid appears as the process of a root.
Without the termination hypothesis the claim fails (see the ppid-cycle
counterexample), and a pid-0 record would both root its parent-chain
and be swallowed as a child. -/
theorem C8_tree_flatten_perm (P : List ProcessInfo)
    (hnodup : (P.map (fun p => p.pid)).Nodup)
    (h0 : ∀ p ∈ P, p.pid ≠ 0)
    (hacyc : ∀ p ∈ P, (rankAux P (P.length + 1) p).isSome = true) :
    List.Perm ((flattenList (build_tree P)).map Prod.fst) P ∧
    ∀ r ∈ P, (r.ppid = 0 ∨ ¬∃ q ∈ P, q.pid = r.ppid) →
      r ∈ (build_tree P).map PTree.process := by
  have hndP : P.Nodup := List.Nodup.of_map _ hnodup
  have hsome : ∀ r ∈ P.filter (rootRec P),
      build_subtree P (P.length + 1) r.pid 0 =
        some (subT P (P.length + 1) 0 r) := by
    intro r hry
    have hrP : r ∈ P := (List.mem_filter.mp hry).1
    apply option_eq_some_getD
    rw [build_subtree_succ, pLookup_self hnodup hrP]
    rfl
  have hbt : build_tree P =
      sortByPid ((P.filter (rootRec P)).map (subT P (P.length + 1) 0)) := by
    unfold build_tree
    rw [filterMap_eq_map_of_some hsome]
  constructor
  · rw [hbt]
    refine ((flattenList_perm_of_perm
      (List.mergeSort_perm _ _)).map Prod.fst).trans ?_
    rw [flattenList_eq, List.map_flatten, List.map_map, List.map_map]
    refine List.Perm.trans ?_ (roots_filter_perm P hnodup h0 hacyc)
    exact join_map_perm_congr (fun r hry =>
      flatten_subtree_perm P hnodup h0 hacyc P.length
        (List.mem_filter.mp hry).1 0 (hsome r hry))
  · intro r hrP hcond
    have hroot : rootRec P r = true := by
      unfold rootRec
      rcases hcond with h | h
      · simp [h]
      · have hcf : containsPid P r.ppid = false := by
          cases hcp : containsPid P r.ppid
          · rfl
          · exact absurd (containsPid_iff.mp hcp) h
        rw [hcf]
        simp
    have hrcrs : r ∈ P.filter (rootRec P) := List.mem_filter.mpr ⟨hrP, hroot⟩
    rw [hbt]
    have hmem1 : subT P (P.length + 1) 0 r ∈
        (P.filter (rootRec P)).map (subT P (P.length + 1) 0) :=
      List.mem_map_of_mem _ hrcrs
    have hmem2 : subT P (P.length + 1) 0 r ∈
        sortByPid ((P.filter (rootRec P)).map (subT P (P.length + 1) 0)) :=
      (List.mergeSort_perm _ _).mem_iff.mpr hmem1
    refine List.mem_map.mpr ⟨subT P (P.length + 1) 0 r, hmem2, ?_⟩
    unfold subT
    rw [build_subtree_succ, pLookup_self hnodup hrP]
    rfl

/-- A minimal record for concrete tree scenarios. -/
def treeProc (pid ppid : ℕ) : ProcessInfo :=
  { pid := pid, ppid := ppid, name := [], command := [], user := [],
    cpu_usage := 0, memory_usage := 0, memory_percent := 0, status := [],
    start_time := 0, running_time := 0, uid := 0, gid := 0, threads := 0,
    priority := 0, nice := 0, network_connections := none,
    is_container := false, container_id := none,
    cgroup_memory_limit := none, gpu_memory := none }

/-- Two records whose ppids form a 2-cycle. -/
def cycleP : List ProcessInfo := [treeProc 2 3, treeProc 3 2]

/-- C8 counterexample: a ppid cycle between pids 2 and 3 (unique PIDs)
yields `build_tree = []`, so the flattened forest is empty and is not a
permutation of the two input records. -/
theorem C8_counterexample :
    (cycleP.map (fun p => p.pid)).Nodup ∧
    build_tree cycleP = [] ∧
    ¬ List.Perm ((flattenList (build_tree cycleP)).map Prod.fst) cycleP := by
  have hbt : build_tree cycleP = [] := by
    have h1 : build_tree cycleP = sortByPid [] := rfl
    rw [h1]
    exact List.mergeSort_nil
  refine ⟨by decide, hbt, ?_⟩
  intro h
  rw [hbt] at h
  have h2 : flattenList [] = ([] : List (ProcessInfo × ℕ)) := by
    simp [flattenList]
  rw [h2] at h
  have hlen := h.length_eq
  simp [cycleP] at hlen

/-- Witness for C8 at the three-process chain 1 ← 2, 1 ← 3: the
hypotheses hold concretely and the theorem applies. -/
theorem C8_tree_flatten_perm_witness :
    List.Perm ((flattenList
        (build_tree [treeProc 1 0, treeProc 2 1, treeProc 3 1])).map Prod.fst)
      [treeProc 1 0, treeProc 2 1, treeProc 3 1] ∧
    treeProc 1 0 ∈
      (build_tree [treeProc 1 0, treeProc 2 1, treeProc 3 1]).map
        PTree.process := by
  have h := C8_tree_flatten_perm [treeProc 1 0, treeProc 2 1, treeProc 3 1]
    (by decide) (by decide) (by decide)
  exact ⟨h.1, h.2 (treeProc 1 0) (by decide) (Or.inl rfl)⟩

end PMV
